import Mathlib

/-!
# filesync-light, Go client: frame codec and session state machine

A shallow embedding of `client-go/main.go`.

* Go byte slices and Go strings are lists of bytes (`string(b)` and `[]byte(s)`
  keep the bytes, so both conversions are the identity here).
* The TCP connection is a value `Conn`: what the peer will deliver to the
  successive `Read` calls, the log of the `Write` calls, and a closed flag.
* `os.Exit(1)` is the outcome `exit`, carrying the state at that moment; a loop
  that would run forever is the outcome `hang`.
-/

set_option autoImplicit false

namespace FileSync

/-- A byte; the values that travel on the wire are below 256. -/
abbrev Byte := Nat

/-- A Go string or byte slice. -/
abbrev GoString := List Byte

/-- Result of a call that may end the process: it returns (`ok`), the process
exits with status 1 (`exit`, with the state at that moment), or the call never
returns (`hang`). -/
inductive Outcome (α σ : Type) where
  | ok (a : α)
  | exit (s : σ)
  | hang
deriving DecidableEq

/-! ## Opcodes and frames (main.go 87-98) -/

abbrev SYNC_INIT : Byte := 0x0
abbrev SYNC_NEW_FILE_PATH : Byte := 0x1
abbrev SYNC_NEW_FILE_PART : Byte := 0x2
abbrev SYNC_NEW_FILE_END : Byte := 0x3
abbrev SYNC_CLOSE : Byte := 0x8

structure Frame where
  opcode : Byte
  payload : List Byte
deriving DecidableEq

/-! ## The connection (`net.Conn`) -/

/-- What one `Read` call finds on the socket: bytes that arrived together (at
least one), or a transport error. An exhausted list is end-of-stream. -/
inductive RecvEvent where
  | seg (b : Byte) (bs : List Byte)
  | ioError
deriving DecidableEq

structure Conn where
  /-- what the peer delivers to the coming `Read` calls -/
  incoming : List RecvEvent
  /-- the buffers passed to `Write`, oldest first -/
  written : List (List Byte)
  closed : Bool
deriving DecidableEq

/-- The rest of a segment is put back in front of the stream. -/
def pushBack (left : List Byte) (rest : List RecvEvent) : List RecvEvent :=
  match left with
  | [] => rest
  | d :: ds => RecvEvent.seg d ds :: rest

/-- Go `conn.Read(buf)` with `len(buf) = k`: the bytes stored in `buf`, whether
`err != nil`, and the connection afterwards. A read delivers what has arrived,
at most `k` bytes; end-of-stream, a transport error and a closed connection
give an error and no bytes. -/
def Conn.Read (c : Conn) (k : Nat) : List Byte × Bool × Conn :=
  if c.closed then ([], true, c)
  else if k = 0 then ([], false, c)
  else
    match c.incoming with
    | [] => ([], true, c)
    | RecvEvent.ioError :: rest => ([], true, { c with incoming := rest })
    | RecvEvent.seg b bs :: rest =>
      ((b :: bs).take k, false, { c with incoming := pushBack ((b :: bs).drop k) rest })

/-- Go `conn.Write(p)`; the code never looks at its result. -/
def Conn.Write (c : Conn) (p : List Byte) : Conn :=
  { c with written := c.written ++ [p] }

/-- Go `conn.Close()`. -/
def Conn.Close (c : Conn) : Conn :=
  { c with closed := true }

/-! ## `encoding/binary`, little endian -/

/-- Go `binary.LittleEndian.PutUint32(b, v)`: the four bytes stored in `b`. -/
def putUint32 (v : Nat) : List Byte :=
  [v % 256, v / 256 % 256, v / 65536 % 256, v / 16777216 % 256]

/-- Go `binary.LittleEndian.Uint32(b)`: `b[0] | b[1]<<8 | b[2]<<16 | b[3]<<24`. -/
def uint32 (b : List Byte) : Nat :=
  b.getD 0 0 + b.getD 1 0 * 256 + b.getD 2 0 * 65536 + b.getD 3 0 * 16777216

/-! ## Frame codec (main.go 219-248) -/

/-- The loop of `readBytes`: `buf` is the filled part `buf[:count]`. Every
round stores at least one byte or exits, so `len` rounds are enough. -/
def readBytesLoop : Nat → Nat → List Byte → Conn → Outcome (List Byte × Conn) Conn
  | 0, len, buf, c => if buf.length = len then .ok (buf, c) else .hang
  | fuel + 1, len, buf, c =>
    if buf.length = len then .ok (buf, c)
    else
      match c.Read (len - buf.length) with
      | (bs, failed, c1) =>
        if failed then .exit c1
        else readBytesLoop fuel len (buf ++ bs) c1

/-- Go `fh.readBytes(len)` -/
def readBytes (len : Nat) (c : Conn) : Outcome (List Byte × Conn) Conn :=
  readBytesLoop len len [] c

/-- Go `fh.readFrame()` -/
def readFrame (c : Conn) : Outcome (Frame × Conn) Conn :=
  match readBytes (1 + 4) c with
  | .hang => .hang
  | .exit c1 => .exit c1
  | .ok (buf, c1) =>
    let opcode := buf.getD 0 0
    let payloadLength := uint32 (buf.drop 1)
    match readBytes payloadLength c1 with
    | .hang => .hang
    | .exit c2 => .exit c2
    | .ok (dataBuf, c2) => .ok ({ opcode := opcode, payload := dataBuf }, c2)

/-- Go `fh.sendFrame(data, syncOpcode)`; `uint32(len(data))` keeps the low 32 bits. -/
def sendFrame (data : List Byte) (syncOpcode : Byte) (c : Conn) : Conn :=
  let length := putUint32 (data.length % 4294967296)
  let payload := [syncOpcode] ++ length
  let payload := payload ++ data
  c.Write payload

/-! ## `strings` and `path/filepath` (Unix), on byte strings

`'/'` is byte 47, `'.'` is byte 46, `'\n'` is byte 10. -/

/-- Put a byte in front of the first piece. -/
def consHead (b : Byte) : List GoString → List GoString
  | [] => [[b]]
  | x :: xs => (b :: x) :: xs

/-- Go `strings.Split(s, sep)` for a one-byte separator: never an empty list,
`Split("", sep)` is `[""]`. -/
def stringsSplit : GoString → Byte → List GoString
  | [], _ => [[]]
  | b :: rest, sep =>
    if b = sep then [] :: stringsSplit rest sep
    else consHead b (stringsSplit rest sep)

/-- Go `strings.Join(elems, sep)` for a one-byte separator. -/
def stringsJoin : List GoString → Byte → GoString
  | [], _ => []
  | [x], _ => x
  | x :: y :: rest, sep => x ++ sep :: stringsJoin (y :: rest) sep

/-- One path element in the loop of `filepath.Clean`; `out` holds the elements
kept so far, the last one first. An empty element and `.` are dropped; `..`
removes the last kept element when there is one to remove, is kept on a path
that is not rooted, and is dropped at the root. -/
def cleanStep (rooted : Bool) (out : List GoString) (elem : GoString) : List GoString :=
  if elem = [] then out
  else if elem = [46] then out
  else if elem = [46, 46] then
    match out with
    | top :: below => if rooted = false ∧ top = [46, 46] then elem :: out else below
    | [] => if rooted then [] else [elem]
  else elem :: out

/-- Go `filepath.Clean(path)` -/
def filepathClean (path : GoString) : GoString :=
  if path = [] then [46]
  else
    let rooted : Bool := decide (path.head? = some 47)
    let out := (stringsSplit path 47).foldl (cleanStep rooted) []
    let body := stringsJoin out.reverse 47
    if rooted then 47 :: body
    else if body = [] then [46]
    else body

/-- Go `filepath.Join(a, b)`: the non-empty arguments joined by `/`, cleaned. -/
def filepathJoin (a b : GoString) : GoString :=
  if a ≠ [] then filepathClean (a ++ 47 :: b)
  else if b ≠ [] then filepathClean b
  else []

/-- Go `filepath.Dir(path)`: `Clean` of everything up to and including the last
separator. -/
def filepathDir (path : GoString) : GoString :=
  filepathClean (path.reverse.dropWhile (fun b => b ≠ 47)).reverse

/-! ## The file system (`os`)

A flat table from path names to nodes; the names are the ones the program hands
to `os`, all of them results of `filepath.Join`. `.` and `/` always exist. A
name that is not in the table does not exist: `os.Stat` on it reports
`IsNotExist`. A name below a regular file is absent in the same way (the
system reports `ENOTDIR` there); the program cannot tell the two apart, because
`Mkdir`, `Create` and `Open` below a name that is not a directory fail in both
cases. -/

inductive Node where
  | dir
  /-- a regular file; `readFault = some k` makes the `k+1`-th `Read` of a
  handle opened on it fail with an error that is not `io.EOF` -/
  | file (content : List Byte) (readFault : Option Nat)
deriving DecidableEq

abbrev FS := List (GoString × Node)

def FS.lookup : FS → GoString → Option Node
  | [], _ => none
  | (q, n) :: rest, p => if q = p then some n else FS.lookup rest p

/-- Replace the node at `p`, or add it at the end. -/
def FS.set : FS → GoString → Node → FS
  | [], p, n => [(p, n)]
  | (q, m) :: rest, p, n => if q = p then (q, n) :: rest else (q, m) :: FS.set rest p n

/-- What `os.Stat(p)` finds. -/
def FS.stat (fs : FS) (p : GoString) : Option Node :=
  if p = [46] ∨ p = [47] then some Node.dir else fs.lookup p

/-- Go `os.Mkdir(p, perm)`: creates `p` when it does not exist and its parent is
a directory; otherwise it fails and nothing changes (the code drops the error). -/
def FS.Mkdir (fs : FS) (p : GoString) : FS :=
  match fs.stat p, fs.stat (filepathDir p) with
  | none, some Node.dir => fs.set p Node.dir
  | _, _ => fs

/-- Go `os.Create(p)`: an existing regular file is truncated, a missing one is
created in an existing directory; `none` is `err != nil`. The handle is `p`. -/
def FS.Create (fs : FS) (p : GoString) : Option FS :=
  match fs.stat p with
  | some (Node.file _ fault) => some (fs.set p (Node.file [] fault))
  | some Node.dir => none
  | none =>
    match fs.stat (filepathDir p) with
    | some Node.dir => some (fs.set p (Node.file [] none))
    | _ => none

/-- Go `file.Write(data)` on the handle of `os.Create(p)`: appends. -/
def FS.Write (fs : FS) (p : GoString) (data : List Byte) : Option FS :=
  match fs.lookup p with
  | some (Node.file content fault) => some (fs.set p (Node.file (content ++ data) fault))
  | _ => none

/-- An `*os.File` opened for reading. -/
structure ReadStream where
  rest : List Byte
  /-- `some k`: the `k+1`-th `Read` from now fails -/
  fault : Option Nat
deriving DecidableEq

/-- Go `os.Open(p)`: fails when `p` does not exist. A directory opens, and every
`Read` on it fails. -/
def FS.Open (fs : FS) (p : GoString) : Option ReadStream :=
  match fs.stat p with
  | none => none
  | some Node.dir => some { rest := [], fault := some 0 }
  | some (Node.file content fault) => some { rest := content, fault := fault }

inductive FileErr where
  | eof
  | other
deriving DecidableEq

/-- Go `readStream.Read(buf)` with `len(buf) = k`: the bytes stored, the error,
the handle afterwards. A zero-length buffer gives `0, nil` at once; otherwise a
read returns the next `min(k, remaining)` bytes, and `io.EOF` at the end. -/
def ReadStream.Read (rs : ReadStream) (k : Nat) : List Byte × Option FileErr × ReadStream :=
  if k = 0 then ([], none, rs)
  else
    match rs.fault with
    | some 0 => ([], some FileErr.other, rs)
    | _ =>
      if rs.rest = [] then ([], some FileErr.eof, rs)
      else (rs.rest.take k, none, { rest := rs.rest.drop k, fault := rs.fault.map Nat.pred })

/-! ## The session (main.go 100-114) -/

structure FrameHandler where
  filePaths : List GoString
  chunkSize : Nat
  pathToFolder : GoString
  socket : Conn
deriving DecidableEq

/-- The frame handler together with the file system it works on. -/
structure World where
  fh : FrameHandler
  fs : FS
deriving DecidableEq

def World.withSocket (w : World) (c : Conn) : World :=
  { w with fh := { w.fh with socket := c } }

def World.withFS (w : World) (fs : FS) : World :=
  { w with fs := fs }

/-- Bytes still to be delivered by the peer. -/
def pendingBytes : List RecvEvent → List Byte
  | [] => []
  | RecvEvent.seg b bs :: rest => b :: bs ++ pendingBytes rest
  | RecvEvent.ioError :: rest => pendingBytes rest

/-! ## Send-File (main.go 250-277) -/

/-- The read loop of `sendFile`. With a zero-length buffer every read returns
`0, nil` and the loop never ends. -/
def sendFileLoop : Nat → Nat → ReadStream → Conn → Outcome Conn Conn
  | 0, _, _, _ => .hang
  | fuel + 1, chunkSize, readStream, c =>
    match readStream.Read chunkSize with
    | (_, some _, _) => .ok c
    | (buf, none, rs1) =>
      if buf.length > 0 then
        sendFileLoop fuel chunkSize rs1 (sendFrame buf SYNC_NEW_FILE_PART c)
      else sendFileLoop fuel chunkSize rs1 c

/-- Go `fh.sendFile(requestedFile)` -/
def sendFile (w : World) (requestedFile : GoString) : Outcome World World :=
  let pathBuffer := requestedFile
  let c := sendFrame pathBuffer SYNC_NEW_FILE_PATH w.fh.socket
  match w.fs.Open (filepathJoin w.fh.pathToFolder requestedFile) with
  | none => .ok (w.withSocket c)
  | some readStream =>
    match sendFileLoop (readStream.rest.length + 1) w.fh.chunkSize readStream c with
    | .hang => .hang
    | .exit c1 => .exit (w.withSocket c1)
    | .ok c1 => .ok (w.withSocket (sendFrame pathBuffer SYNC_NEW_FILE_END c1))

/-! ## Directory creation (main.go 279-289) -/

/-- Go `fh.createDirectoriesRecursively(dirPath)`; `none` when the recursion is
cut off. Each call moves to `filepath.Dir`, which ends at `.` or `/`. -/
def createDirectoriesLoop : Nat → FS → GoString → Option FS
  | 0, _, _ => none
  | fuel + 1, fs, dirPath =>
    let parentDir := filepathDir dirPath
    let fs1 :=
      if fs.stat parentDir = none then createDirectoriesLoop fuel fs parentDir
      else some fs
    match fs1 with
    | none => none
    | some fs1 =>
      if fs1.stat dirPath = none then some (fs1.Mkdir dirPath)
      else some fs1

def createDirectoriesRecursively (fs : FS) (dirPath : GoString) : Option FS :=
  createDirectoriesLoop (dirPath.length + 2) fs dirPath

/-! ## The dispatch (main.go 162-217) -/

/-- The `for _, file := range requestedFiles` loop. -/
def sendFiles : List GoString → World → Outcome World World
  | [], w => .ok w
  | file :: rest, w =>
    match sendFile w file with
    | .ok w1 => sendFiles rest w1
    | .exit s => .exit s
    | .hang => .hang

/-- The loop `for frame.opcode != SYNC_NEW_FILE_END` of the receive branch, on
the handle `filePath`; returns the frame that ended it. -/
def receiveLoop : Nat → GoString → Frame → World → Outcome (Frame × World) World
  | 0, _, _, _ => .hang
  | fuel + 1, filePath, frame, w =>
    if frame.opcode = SYNC_NEW_FILE_END then .ok (frame, w)
    else if frame.opcode ≠ SYNC_NEW_FILE_PART then .exit w
    else
      match w.fs.Write filePath frame.payload with
      | none => .exit w
      | some fs1 =>
        match readFrame w.fh.socket with
        | .hang => .hang
        | .exit c1 => .exit ((w.withFS fs1).withSocket c1)
        | .ok (frame1, c1) => receiveLoop fuel filePath frame1 ((w.withFS fs1).withSocket c1)

/-- Go `frame := fh.readFrame()` followed by the receive loop. Every round of the
loop reads a frame of at least five bytes, so the loop makes fewer rounds than
`fuel`, the number of bytes that are still to come plus one. -/
def receiveFrom (fuel : Nat) (filePath : GoString) (w : World) : Outcome (Frame × World) World :=
  match readFrame w.fh.socket with
  | .hang => .hang
  | .exit c1 => .exit (w.withSocket c1)
  | .ok (frame1, c1) => receiveLoop fuel filePath frame1 (w.withSocket c1)

/-- Go `fh.HandleData()` -/
def HandleData (w : World) : Outcome World World :=
  match readFrame w.fh.socket with
  | .hang => .hang
  | .exit c => .exit (w.withSocket c)
  | .ok (frame, c) =>
    let w := w.withSocket c
    if frame.opcode = SYNC_INIT then
      let requestedFiles := stringsSplit frame.payload 10
      if requestedFiles.length = 0 then .ok w
      else sendFiles requestedFiles w
    else if frame.opcode = SYNC_NEW_FILE_PATH then
      let newFilePath := frame.payload
      match createDirectoriesRecursively w.fs
          (filepathJoin w.fh.pathToFolder (filepathDir newFilePath)) with
      | none => .hang
      | some fs1 =>
        let filePath := filepathJoin w.fh.pathToFolder newFilePath
        match fs1.Create filePath with
        | none => .exit (w.withFS fs1)
        | some fs2 =>
          let w := w.withFS fs2
          match receiveFrom ((pendingBytes w.fh.socket.incoming).length + 1) filePath w with
          | .hang => .hang
          | .exit s => .exit s
          | .ok (frame, w) =>
            let endFilePath := frame.payload
            if newFilePath ≠ endFilePath then .exit w
            else
              .ok { w with fh := { w.fh with filePaths := w.fh.filePaths ++ [filePath] } }
    else if frame.opcode = SYNC_CLOSE then .ok w
    else .exit (w.withSocket w.fh.socket.Close)

/-! ## Vocabulary of the statements -/

/-- An ASCII literal as a Go string. -/
def ascii (s : String) : GoString :=
  s.toList.map Char.toNat

/-- No transport error is waiting in the stream. -/
def errorFree : List RecvEvent → Prop
  | [] => True
  | RecvEvent.seg _ _ :: rest => errorFree rest
  | RecvEvent.ioError :: _ => False

instance errorFree.decidable : (evs : List RecvEvent) → Decidable (errorFree evs)
  | [] => isTrue trivial
  | RecvEvent.seg _ _ :: rest => errorFree.decidable rest
  | RecvEvent.ioError :: _ => isFalse (fun h => h)

/-- The byte stream the peer sees when these buffers are written in order. -/
def wire : List (List Byte) → List Byte
  | [] => []
  | p :: rest => p ++ wire rest

/-- A connection on which nothing has happened yet. -/
def freshConn : Conn :=
  { incoming := [], written := [], closed := false }

/-- The bytes `sendFrame` puts on the wire for a frame. -/
def frameBytes (f : Frame) : List Byte :=
  wire (sendFrame f.payload f.opcode freshConn).written

/-- The connection after these frames have been sent with `sendFrame`, in
order. -/
def emit (frames : List Frame) (c : Conn) : Conn :=
  frames.foldl (fun c f => sendFrame f.payload f.opcode c) c

/-- What `sendFile(r)` writes in this world: the `Write` buffers it adds, in
order, observed on a connection that has nothing written yet. -/
def sendFileWrites (w : World) (r : GoString) : List (List Byte) :=
  match sendFile (w.withSocket freshConn) r with
  | .ok w1 => w1.fh.socket.written
  | .exit w1 => w1.fh.socket.written
  | .hang => []

/-- The connection `base` with the writes of `out` added after its own. -/
def Conn.onto (base out : Conn) : Conn :=
  { base with written := base.written ++ out.written }

/-- Number of non-empty pieces. -/
def nonEmptyCount : List GoString → Nat
  | [] => 0
  | x :: xs => (if x = [] then 0 else 1) + nonEmptyCount xs

/-- The content of the regular file `p`. -/
def FS.content (fs : FS) (p : GoString) : Option (List Byte) :=
  match fs.lookup p with
  | some (Node.file content _) => some content
  | _ => none

/-- The frames that carry these payloads as `FILE_PART`. -/
def partFrames (parts : List (List Byte)) : List Frame :=
  parts.map fun q => { opcode := SYNC_NEW_FILE_PART, payload := q }

/-- The byte stream of a sequence of frames. -/
def framesBytes (frames : List Frame) : List Byte :=
  wire (frames.map frameBytes)

/-- A stream that delivers these bytes in one segment. -/
def oneSegment : List Byte → List RecvEvent
  | [] => []
  | b :: bs => [RecvEvent.seg b bs]

/-- A receiver whose root `dst` holds an old `a.txt`, with `input` arriving. -/
def receiverWorld (input : List RecvEvent) : World :=
  { fh := { filePaths := [], chunkSize := 4, pathToFolder := ascii "dst",
            socket := { incoming := input, written := [], closed := false } },
    fs := [(ascii "dst", Node.dir), (ascii "dst/a.txt", Node.file [9, 9, 9, 9, 9] none)] }

/-- The scenario of the spec: the root holds `a.txt` (3 bytes) and `sub/b.txt`
(0 bytes), the chunk size is 1, and the peer has sent the bytes `input`. -/
def scenarioWorld (input : List RecvEvent) : World :=
  { fh := { filePaths := [ascii "a.txt", ascii "sub/b.txt"], chunkSize := 1,
            pathToFolder := ascii "root",
            socket := { incoming := input, written := [], closed := false } },
    fs := [(ascii "root", Node.dir), (ascii "root/a.txt", Node.file [120, 121, 122] none),
           (ascii "root/sub", Node.dir), (ascii "root/sub/b.txt", Node.file [] none)] }


/-! ## The handshake and the protocol loop (main.go 153-160) -/

/-- The loop `for { fh.HandleData() }`: it ends only with `os.Exit`. Every call
of `HandleData` that returns has read a frame of at least five bytes, so the
loop makes fewer rounds than `fuel`, the number of bytes still to come plus
one. -/
def handleLoop : Nat → World → Outcome World World
  | 0, _ => .hang
  | fuel + 1, w =>
    match HandleData w with
    | .ok w1 => handleLoop fuel w1
    | .exit s => .exit s
    | .hang => .hang

/-- Go `fh.InitSocket(apiKey)` -/
def InitSocket (w : World) (apiKey : GoString) : Outcome World World :=
  let c := w.fh.socket.Write apiKey
  let c := sendFrame (stringsJoin w.fh.filePaths 10) SYNC_INIT c
  handleLoop ((pendingBytes c.incoming).length + 1) (w.withSocket c)

/-- The session fields that stay fixed, and the known paths, are the same in
both worlds. -/
def SameSession (w w1 : World) : Prop :=
  w1.fh.filePaths = w.fh.filePaths ∧ w1.fh.chunkSize = w.fh.chunkSize
    ∧ w1.fh.pathToFolder = w.fh.pathToFolder

/-- Every entry of the table has a parent that exists, as in a file system. -/
def FS.parentsExist (fs : FS) : Prop :=
  ∀ k n, fs.lookup k = some n → fs.stat (filepathDir k) ≠ none

/-! ## Listing directories (`os.ReadDir`) and the enumeration (main.go 121-151) -/

/-- A name that a directory entry can have: not empty, without `/`, and
neither `.` nor `..`. -/
def isEntryName (name : GoString) : Bool :=
  decide (name ≠ [] ∧ 47 ∉ name ∧ name ≠ [46] ∧ name ≠ [46, 46])

/-- What the names inside the directory `d` (a cleaned path) start with. -/
def dirPrefix (d : GoString) : GoString :=
  if d = [46] then [] else if d = [47] then [47] else d ++ [47]

/-- The name of `k` inside the directory `d`, when `k` lies directly inside. -/
def childName (d k : GoString) : Option GoString :=
  if (dirPrefix d).isPrefixOf k ∧ isEntryName (k.drop (dirPrefix d).length) then
    some (k.drop (dirPrefix d).length)
  else none

/-- Byte-wise lexicographic order on names. -/
def nameLE : GoString → GoString → Bool
  | [], _ => true
  | _ :: _, [] => false
  | a :: x, b :: y => if a < b then true else if b < a then false else nameLE x y

def insertByName (e : GoString × Node) : List (GoString × Node) → List (GoString × Node)
  | [] => [e]
  | f :: rest => if nameLE e.1 f.1 then e :: f :: rest else f :: insertByName e rest

def sortByName : List (GoString × Node) → List (GoString × Node)
  | [] => []
  | e :: rest => insertByName e (sortByName rest)

/-- The entries of the table that lie directly inside `d`, with their names. -/
def FS.children (fs : FS) (d : GoString) : List (GoString × Node) :=
  fs.filterMap fun e =>
    match childName d e.1 with
    | some name => if fs.lookup e.1 = some e.2 then some (name, e.2) else none
    | none => none

/-- Go `os.ReadDir(p)`: the entries of the directory `p`, sorted by filename;
`none` is `err != nil`, when `p` is missing or not a directory. The system
resolves the name it is given, so the table is asked for the cleaned path. -/
def FS.ReadDir (fs : FS) (p : GoString) : Option (List (GoString × Node)) :=
  match fs.stat (filepathClean p) with
  | some Node.dir => some (sortByName (fs.children (filepathClean p)))
  | _ => none

/-- The loop `for _, file := range files` of `traverseDirectory`; `recurse` is
the recursive call. `file.Info()` gives the node that the listing found. -/
def traverseEntries (recurse : GoString → List GoString → Outcome (List GoString) Unit)
    (currentPath : GoString) :
    List (GoString × Node) → List GoString → Outcome (List GoString) Unit
  | [], filePaths => .ok filePaths
  | (name, node) :: files, filePaths =>
    let filePath := filepathJoin currentPath name
    match node with
    | Node.dir =>
      match recurse filePath filePaths with
      | .ok filePaths1 => traverseEntries recurse currentPath files filePaths1
      | .exit s => .exit s
      | .hang => .hang
    | Node.file _ _ =>
      traverseEntries recurse currentPath files
        (filePaths ++ [stringsJoin ((stringsSplit filePath 47).drop 1) 47])

/-- The closure `traverseDirectory` of `InitFilePaths`, with the captured
slice `filePaths` passed along. The recursion goes one directory deeper with
every call. -/
def traverseDirectory : Nat → FS → GoString → List GoString → Outcome (List GoString) Unit
  | 0, _, _, _ => .hang
  | fuel + 1, fs, currentPath, filePaths =>
    match fs.ReadDir currentPath with
    | none => .exit ()
    | some files => traverseEntries (traverseDirectory fuel fs) currentPath files filePaths

/-- The largest number of separators in a name of the table. -/
def maxDepth : FS → Nat
  | [] => 0
  | e :: rest => max (e.1.count 47) (maxDepth rest)

/-- Go `fh.InitFilePaths()` -/
def InitFilePaths (w : World) : Outcome World World :=
  match traverseDirectory (maxDepth w.fs + 3) w.fs w.fh.pathToFolder [] with
  | .ok filePaths => .ok { w with fh := { w.fh with filePaths := filePaths } }
  | .exit _ => .exit w
  | .hang => .hang

/-- Go `fh.Init(apiKey)` -/
def Init (w : World) (apiKey : GoString) : Outcome World World :=
  match InitFilePaths w with
  | .ok w1 => InitSocket w1 apiKey
  | .exit s => .exit s
  | .hang => .hang

/-- The cleaned path with these elements, rooted (`/a/b`) or relative (`a/b`,
and `.` without elements). -/
def renderPath (rooted : Bool) (names : List GoString) : GoString :=
  if rooted then 47 :: stringsJoin names 47
  else if names = [] then [46]
  else stringsJoin names 47

/-- How `filepath.Clean` ends: the kept elements `out` (last first) are joined. -/
def finishClean (rooted : Bool) (out : List GoString) : GoString :=
  if rooted then 47 :: stringsJoin out.reverse 47
  else if stringsJoin out.reverse 47 = [] then [46]
  else stringsJoin out.reverse 47

/-- The elements of a cleaned path: each is non-empty and without `/`, and
`filepath.Clean` keeps all of them (no `.`, and `..` only in front of a
relative path). -/
def cleanNames (rooted : Bool) (names : List GoString) : Prop :=
  (∀ a ∈ names, a ≠ [] ∧ 47 ∉ a) ∧ names.foldl (cleanStep rooted) [] = names.reverse

/-- Every element can be the name of a directory entry. -/
def allEntryNames (names : List GoString) : Prop :=
  ∀ n ∈ names, isEntryName n = true

instance allEntryNames.decidable (names : List GoString) : Decidable (allEntryNames names) :=
  inferInstanceAs (Decidable (∀ n ∈ names, isEntryName n = true))

/-- The path `e` is what line 143 of `main.go` makes of a regular file that
lies below the cleaned root `A`, at the relative path `names`: the joined path
without its first `/`-separated element. -/
def emittedFrom (fs : FS) (rooted : Bool) (A : List GoString) (e : GoString) : Prop :=
  ∃ (names : List GoString) (content : List Byte) (fault : Option Nat),
    names ≠ [] ∧ allEntryNames names
      ∧ fs.lookup (renderPath rooted (A ++ names)) = some (Node.file content fault)
      ∧ e = stringsJoin ((stringsSplit (renderPath rooted (A ++ names)) 47).drop 1) 47

/-- A root folder `a/b` that holds `f.txt` and `s/g`. -/
def nestedRootWorld : World :=
  { fh := { filePaths := [], chunkSize := 1, pathToFolder := ascii "a/b", socket := freshConn },
    fs := [(ascii "a", Node.dir), (ascii "a/b", Node.dir),
           (ascii "a/b/f.txt", Node.file [1] none), (ascii "a/b/s", Node.dir),
           (ascii "a/b/s/g", Node.file [] none)] }

/-- The root folder `.`, the working directory, which holds `f.txt` and `s/g`. -/
def dotRootWorld : World :=
  { fh := { filePaths := [], chunkSize := 1, pathToFolder := ascii ".", socket := freshConn },
    fs := [(ascii "f.txt", Node.file [1] none), (ascii "s", Node.dir),
           (ascii "s/g", Node.file [] none)] }

/-! # Theorems -/

/-! ## Streams -/

theorem pendingBytes_pushBack (left : List Byte) (rest : List RecvEvent) :
    pendingBytes (pushBack left rest) = left ++ pendingBytes rest := by
  cases left <;> simp [pushBack, pendingBytes]

theorem errorFree_pushBack (left : List Byte) (rest : List RecvEvent)
    (h : errorFree rest) : errorFree (pushBack left rest) := by
  cases left <;> simpa [pushBack, errorFree] using h

theorem errorFree_nil_of_pending {evs : List RecvEvent} (hfree : errorFree evs)
    (hp : pendingBytes evs = []) : evs = [] := by
  cases evs with
  | nil => rfl
  | cons e rest =>
    cases e with
    | seg b bs => simp [pendingBytes] at hp
    | ioError => simp [errorFree] at hfree

/-- On an open stream that delivers `xs ++ ys` without error, the loop of
`readBytes` fills the buffer with `xs`, whatever the segmentation, and leaves a
stream that delivers `ys`. -/
theorem readBytesLoop_spec (fuel : Nat) :
    ∀ (xs ys buf : List Byte) (c : Conn), c.closed = false → errorFree c.incoming →
      pendingBytes c.incoming = xs ++ ys → xs.length ≤ fuel →
      ∃ evs, readBytesLoop fuel (buf.length + xs.length) buf c
          = .ok (buf ++ xs, { c with incoming := evs })
        ∧ errorFree evs ∧ pendingBytes evs = ys := by
  induction fuel with
  | zero =>
    intro xs ys buf c _ hfree hbytes hlen
    have hxs : xs = [] := List.length_eq_zero.mp (Nat.le_zero.mp hlen)
    subst hxs
    exact ⟨c.incoming, by simp [readBytesLoop], hfree, by simpa using hbytes⟩
  | succ fuel ih =>
    intro xs ys buf c hopen hfree hbytes hlen
    cases xs with
    | nil => exact ⟨c.incoming, by simp [readBytesLoop], hfree, by simpa using hbytes⟩
    | cons x xs =>
      obtain ⟨incoming, written, closed⟩ := c
      simp only at hopen hfree hbytes
      subst hopen
      cases incoming with
      | nil => simp [pendingBytes] at hbytes
      | cons e rest =>
        cases e with
        | ioError => simp [errorFree] at hfree
        | seg b bs =>
          simp only [errorFree] at hfree
          simp only [pendingBytes] at hbytes
          have hne : ¬ buf.length = buf.length + (x :: xs).length := by simp
          have hk : buf.length + (x :: xs).length - buf.length = xs.length + 1 := by simp
          simp only [readBytesLoop, hne, if_false, hk, Conn.Read, Bool.false_eq_true,
            Nat.succ_ne_zero]
          -- the bytes delivered by this read, and what is left of the segment
          have hb : b = x := by
            have := congrArg List.head? hbytes
            simpa using this
          subst hb
          have htail : bs ++ pendingBytes rest = xs ++ ys := by
            simpa using hbytes
          have hall : (b :: bs).take (xs.length + 1) = b :: bs.take xs.length := by simp
          have hdrop : (b :: bs).drop (xs.length + 1) = bs.drop xs.length := by simp
          rw [hall, hdrop]
          -- split xs at the number of delivered bytes
          have htake : bs.take xs.length = xs.take bs.length := by
            have h1 := congrArg (List.take (min xs.length bs.length)) htail
            rw [List.take_append_of_le_length (by simp), List.take_append_of_le_length (by simp)]
              at h1
            rcases Nat.le_total xs.length bs.length with h | h
            · rw [Nat.min_eq_left h] at h1
              rw [h1, List.take_of_length_le (le_refl _), List.take_of_length_le h]
            · rw [Nat.min_eq_right h] at h1
              rw [← h1, List.take_of_length_le (le_refl _), List.take_of_length_le h]
          have hrest : bs.drop xs.length ++ pendingBytes rest = xs.drop bs.length ++ ys := by
            have h1 := congrArg (List.drop (min xs.length bs.length)) htail
            rcases Nat.le_total xs.length bs.length with h | h
            · rw [Nat.min_eq_left h, List.drop_append_of_le_length h,
                List.drop_append_of_le_length (le_refl _)] at h1
              simpa [List.drop_of_length_le h] using h1
            · rw [Nat.min_eq_right h, List.drop_append_of_le_length (le_refl _),
                List.drop_append_of_le_length h] at h1
              simpa [List.drop_of_length_le h] using h1
          have hstep := ih (xs.drop bs.length) ys (buf ++ b :: bs.take xs.length)
            { incoming := pushBack (bs.drop xs.length) rest, written := written, closed := false }
            rfl (errorFree_pushBack _ _ hfree)
            (by rw [pendingBytes_pushBack]; exact hrest)
            (by simp at hlen ⊢; omega)
          have hlen2 : (buf ++ b :: bs.take xs.length).length + (xs.drop bs.length).length
              = buf.length + (b :: xs).length := by
            simp; omega
          rw [hlen2] at hstep
          obtain ⟨evs, hrun, hf, hp⟩ := hstep
          refine ⟨evs, ?_, hf, hp⟩
          rw [hrun]
          have : buf ++ b :: bs.take xs.length ++ xs.drop bs.length = buf ++ b :: xs := by
            rw [htake]; simp
          simp [this]

theorem readBytes_spec (xs ys : List Byte) (c : Conn) (hopen : c.closed = false)
    (hfree : errorFree c.incoming) (hbytes : pendingBytes c.incoming = xs ++ ys) :
    ∃ evs, readBytes xs.length c = .ok (xs, { c with incoming := evs })
      ∧ errorFree evs ∧ pendingBytes evs = ys := by
  have h := readBytesLoop_spec xs.length xs ys [] c hopen hfree hbytes (le_refl _)
  simpa [readBytes] using h

/-! ## Frame codec -/

theorem putUint32_length (v : Nat) : (putUint32 v).length = 4 := rfl

theorem uint32_putUint32 (v : Nat) (h : v < 4294967296) : uint32 (putUint32 v) = v := by
  simp only [uint32, putUint32, List.getD_cons_zero, List.getD_cons_succ]
  omega

theorem sendFrame_written (data : List Byte) (o : Byte) (c : Conn) :
    (sendFrame data o c).written
      = c.written ++ [o :: putUint32 (data.length % 4294967296) ++ data] := by
  simp [sendFrame, Conn.Write]

theorem frameBytes_eq (f : Frame) :
    frameBytes f = f.opcode :: putUint32 (f.payload.length % 4294967296) ++ f.payload := by
  simp [frameBytes, sendFrame_written, freshConn, wire]

/-- On an open stream that delivers the bytes of a frame and then `ys`,
`readFrame` returns the frame and leaves a stream that delivers `ys`. -/
theorem readFrame_spec (f : Frame) (hlen : f.payload.length < 4294967296) (ys : List Byte)
    (c : Conn) (hopen : c.closed = false) (hfree : errorFree c.incoming)
    (hbytes : pendingBytes c.incoming = frameBytes f ++ ys) :
    ∃ evs, readFrame c = .ok (f, { c with incoming := evs })
      ∧ errorFree evs ∧ pendingBytes evs = ys := by
  obtain ⟨o, p⟩ := f
  simp only at hlen
  rw [frameBytes_eq] at hbytes
  simp only [Nat.mod_eq_of_lt hlen] at hbytes
  have h5 : pendingBytes c.incoming = (o :: putUint32 p.length) ++ (p ++ ys) := by
    rw [hbytes]; simp
  obtain ⟨evs1, hrun1, hfree1, hbytes1⟩ := readBytes_spec _ _ c hopen hfree h5
  have hl : (o :: putUint32 p.length).length = 1 + 4 := by simp [putUint32_length]
  rw [hl] at hrun1
  obtain ⟨evs2, hrun2, hfree2, hbytes2⟩ :=
    readBytes_spec p ys { c with incoming := evs1 } hopen hfree1 hbytes1
  refine ⟨evs2, ?_, hfree2, hbytes2⟩
  simp only [readFrame, hrun1, List.drop_succ_cons, List.drop_zero, uint32_putUint32 _ hlen,
    hrun2, List.getD_cons_zero]

/-- C1. Frame round trip: when the stream holds exactly the bytes that
`sendFrame(p, o)` wrote, in whatever segments they arrive, `readFrame` returns
the frame with opcode `o` and payload `p` (for `p` empty a frame with the empty
payload) and has consumed the whole stream. -/
theorem readFrame_sendFrame_roundtrip (o : Byte) (p : List Byte) (hp : p.length < 2 ^ 32)
    (c : Conn) (hopen : c.closed = false) (hfree : errorFree c.incoming)
    (hbytes : pendingBytes c.incoming = wire (sendFrame p o freshConn).written) :
    readFrame c = .ok ({ opcode := o, payload := p }, { c with incoming := [] }) := by
  have hb : pendingBytes c.incoming = frameBytes { opcode := o, payload := p } ++ [] := by
    rw [hbytes]; simp [frameBytes]
  obtain ⟨evs, hrun, hfree1, hnil⟩ :=
    readFrame_spec { opcode := o, payload := p } (by simpa using hp) [] c hopen hfree hb
  rw [hrun, errorFree_nil_of_pending hfree1 hnil]

/-- C1, witness: the empty payload with opcode 8, delivered in two segments. -/
theorem readFrame_sendFrame_roundtrip_witness :
    readFrame { incoming := [RecvEvent.seg 8 [0], RecvEvent.seg 0 [0, 0]], written := [],
                closed := false }
      = .ok ({ opcode := 8, payload := [] }, { incoming := [], written := [], closed := false }) :=
  readFrame_sendFrame_roundtrip 8 [] (by decide)
    { incoming := [RecvEvent.seg 8 [0], RecvEvent.seg 0 [0, 0]], written := [], closed := false }
    rfl (by simp [errorFree]) (by decide)

/-- C2. Wire format: `sendFrame(p, o)` makes one `Write` call, whose buffer is
the opcode byte, the four bytes of `len(p)` with the least significant first,
and `p`: `5 + len(p)` bytes. Nothing else on the connection changes. -/
theorem sendFrame_wire_format (o : Byte) (p : List Byte) (hp : p.length < 2 ^ 32) (c : Conn) :
    ∃ b0 b1 b2 b3 : Nat, b0 < 256 ∧ b1 < 256 ∧ b2 < 256 ∧ b3 < 256
      ∧ p.length = b0 + 256 * b1 + 256 ^ 2 * b2 + 256 ^ 3 * b3
      ∧ (sendFrame p o c).written = c.written ++ [[o] ++ [b0, b1, b2, b3] ++ p]
      ∧ ([o] ++ [b0, b1, b2, b3] ++ p).length = 5 + p.length
      ∧ (sendFrame p o c).incoming = c.incoming ∧ (sendFrame p o c).closed = c.closed := by
  have hp1 : p.length < 4294967296 := by simpa using hp
  refine ⟨p.length % 256, p.length / 256 % 256, p.length / 65536 % 256,
    p.length / 16777216 % 256, by omega, by omega, by omega, by omega, by omega, ?_, ?_, rfl, rfl⟩
  · rw [sendFrame_written, Nat.mod_eq_of_lt hp1]
    simp [putUint32]
  · simp; omega

/-- C2, witness: a 3-byte payload sent with opcode 2. -/
theorem sendFrame_wire_format_witness :
    ∃ b0 b1 b2 b3 : Nat, b0 < 256 ∧ b1 < 256 ∧ b2 < 256 ∧ b3 < 256
      ∧ [7, 8, 9].length = b0 + 256 * b1 + 256 ^ 2 * b2 + 256 ^ 3 * b3
      ∧ (sendFrame [7, 8, 9] 2 freshConn).written
          = freshConn.written ++ [[2] ++ [b0, b1, b2, b3] ++ [7, 8, 9]]
      ∧ ([2] ++ [b0, b1, b2, b3] ++ [7, 8, 9]).length
          = 5 + [7, 8, 9].length
      ∧ (sendFrame [7, 8, 9] 2 freshConn).incoming = freshConn.incoming
      ∧ (sendFrame [7, 8, 9] 2 freshConn).closed = freshConn.closed :=
  sendFrame_wire_format 2 [7, 8, 9] (by decide) freshConn

/-! ## Send-File -/

theorem emit_nil (c : Conn) : emit [] c = c := rfl

theorem emit_cons (f : Frame) (frames : List Frame) (c : Conn) :
    emit (f :: frames) c = emit frames (sendFrame f.payload f.opcode c) := rfl

theorem emit_append (xs ys : List Frame) (c : Conn) :
    emit (xs ++ ys) c = emit ys (emit xs c) := by
  simp [emit, List.foldl_append]

theorem ceilDiv_step (n c : Nat) (hn : 0 < n) (hc : 0 < c) :
    (n + c - 1) / c = (n - c + c - 1) / c + 1 := by
  have h1 : n + c - 1 = (n - 1) + c := by omega
  rw [h1, Nat.add_div_right _ hc]
  rcases Nat.lt_or_ge n c with h | h
  · have h2 : n - c + c - 1 = c - 1 := by omega
    rw [h2, Nat.div_eq_of_lt (by omega : n - 1 < c), Nat.div_eq_of_lt (by omega : c - 1 < c)]
  · have h2 : n - c + c - 1 = n - 1 := by omega
    rw [h2]

/-- The read loop of `sendFile` on a file without read faults, with a positive
chunk size: it sends the content as `FILE_PART` frames and ends. -/
theorem sendFileLoop_spec (chunkSize : Nat) (hc : 0 < chunkSize) (fuel : Nat) :
    ∀ (b : List Byte) (c : Conn), b.length + 1 ≤ fuel →
      ∃ parts : List (List Byte), wire parts = b
        ∧ (∀ q ∈ parts, 1 ≤ q.length ∧ q.length ≤ chunkSize)
        ∧ parts.length = (b.length + chunkSize - 1) / chunkSize
        ∧ sendFileLoop fuel chunkSize { rest := b, fault := none } c
            = .ok (emit (parts.map fun q => { opcode := SYNC_NEW_FILE_PART, payload := q }) c) := by
  induction fuel with
  | zero => intro b c h; omega
  | succ fuel ih =>
    intro b c hfuel
    have hc0 : chunkSize ≠ 0 := by omega
    cases b with
    | nil =>
      refine ⟨[], rfl, by simp, ?_, ?_⟩
      · simp only [List.length_nil, Nat.zero_add]
        rw [Nat.div_eq_of_lt (by omega)]
      · simp [sendFileLoop, ReadStream.Read, hc0, emit]
    | cons x xs =>
      obtain ⟨parts, hcat, hlen, hcount, hrun⟩ :=
        ih ((x :: xs).drop chunkSize)
          (sendFrame ((x :: xs).take chunkSize) SYNC_NEW_FILE_PART c)
          (by have := List.length_drop chunkSize (x :: xs); simp only [List.length_cons] at *; omega)
      refine ⟨(x :: xs).take chunkSize :: parts, ?_, ?_, ?_, ?_⟩
      · simp only [wire, hcat, List.take_append_drop]
      · intro q hq
        rcases List.mem_cons.mp hq with h | h
        · subst h
          simp only [List.length_take, List.length_cons]
          omega
        · exact hlen q h
      · rw [List.length_cons, hcount, List.length_drop]
        exact (ceilDiv_step (x :: xs).length chunkSize (by simp) hc).symm
      · have hpos : ((x :: xs).take chunkSize).length > 0 := by
          simp only [List.length_take, List.length_cons]; omega
        simp only [sendFileLoop, ReadStream.Read, hc0, if_false, Option.map_none',
          List.cons_ne_nil, hpos, if_true, hrun, List.map_cons, emit_cons]

/-- C3. Send-File frame sequence: when the requested file opens with content
`b` and reads without fault, and the chunk size is positive, `sendFile(r)`
returns, and what it has done on the connection is to send `FILE_PATH r`, then
`ceil(len(b) / chunkSize)` `FILE_PART` frames whose payloads have between 1 and
`chunkSize` bytes and concatenate to `b` (none for an empty file), then
`FILE_END r`. -/
theorem sendFile_frames (w : World) (r b : List Byte) (hc : 0 < w.fh.chunkSize)
    (hopen : w.fs.Open (filepathJoin w.fh.pathToFolder r) = some { rest := b, fault := none }) :
    ∃ parts : List (List Byte), wire parts = b
      ∧ (∀ q ∈ parts, 1 ≤ q.length ∧ q.length ≤ w.fh.chunkSize)
      ∧ parts.length = (b.length + w.fh.chunkSize - 1) / w.fh.chunkSize
      ∧ (b = [] → parts = [])
      ∧ sendFile w r = .ok (w.withSocket (emit
          ([{ opcode := SYNC_NEW_FILE_PATH, payload := r }]
            ++ (parts.map fun q => { opcode := SYNC_NEW_FILE_PART, payload := q })
            ++ [{ opcode := SYNC_NEW_FILE_END, payload := r }]) w.fh.socket)) := by
  obtain ⟨parts, hcat, hlen, hcount, hrun⟩ :=
    sendFileLoop_spec w.fh.chunkSize hc (b.length + 1) b
      (sendFrame r SYNC_NEW_FILE_PATH w.fh.socket) (le_refl _)
  refine ⟨parts, hcat, hlen, hcount, ?_, ?_⟩
  · intro hb
    subst hb
    cases parts with
    | nil => rfl
    | cons q qs =>
      have h1 := (hlen q (List.mem_cons_self _ _)).1
      have h2 : (q ++ wire qs).length = 0 := by
        have := congrArg List.length hcat
        simpa [wire] using this
      simp only [List.length_append] at h2
      omega
  · simp only [sendFile, hopen, hrun, emit_append, emit_cons, emit_nil]

/-- C3, witness: a 3-byte file sent with chunk size 2. -/
theorem sendFile_frames_witness :
    ∃ parts : List (List Byte), wire parts = [1, 2, 3]
      ∧ (∀ q ∈ parts, 1 ≤ q.length ∧ q.length ≤ 2)
      ∧ parts.length = (3 + 2 - 1) / 2
      ∧ (([1, 2, 3] : List Byte) = [] → parts = [])
      ∧ sendFile { fh := { filePaths := [], chunkSize := 2, pathToFolder := ascii "root",
                           socket := freshConn },
                   fs := [(ascii "root", Node.dir), (ascii "root/a.txt", Node.file [1, 2, 3] none)] }
          (ascii "a.txt")
        = .ok (World.withSocket
            { fh := { filePaths := [], chunkSize := 2, pathToFolder := ascii "root",
                      socket := freshConn },
              fs := [(ascii "root", Node.dir), (ascii "root/a.txt", Node.file [1, 2, 3] none)] }
            (emit ([{ opcode := SYNC_NEW_FILE_PATH, payload := ascii "a.txt" }]
              ++ (parts.map fun q => { opcode := SYNC_NEW_FILE_PART, payload := q })
              ++ [{ opcode := SYNC_NEW_FILE_END, payload := ascii "a.txt" }]) freshConn)) :=
  sendFile_frames
    { fh := { filePaths := [], chunkSize := 2, pathToFolder := ascii "root", socket := freshConn },
      fs := [(ascii "root", Node.dir), (ascii "root/a.txt", Node.file [1, 2, 3] none)] }
    (ascii "a.txt") [1, 2, 3] (by decide) (by decide)

theorem onto_freshConn (base : Conn) : base.onto freshConn = base := by
  simp [Conn.onto, freshConn]

theorem sendFrame_onto (data : List Byte) (o : Byte) (base out : Conn) :
    sendFrame data o (base.onto out) = base.onto (sendFrame data o out) := by
  simp [sendFrame, Conn.Write, Conn.onto]

/-- The read loop of `sendFile` only adds writes: run on a connection that
already has writes, it adds the same buffers as on any other. -/
theorem sendFileLoop_onto (chunkSize : Nat) (base : Conn) (fuel : Nat) :
    ∀ (rs : ReadStream) (out : Conn),
      sendFileLoop fuel chunkSize rs (base.onto out)
        = match sendFileLoop fuel chunkSize rs out with
          | .ok c => .ok (base.onto c)
          | .exit c => .exit (base.onto c)
          | .hang => .hang := by
  induction fuel with
  | zero => intro rs out; rfl
  | succ fuel ih =>
    intro rs out
    simp only [sendFileLoop]
    rcases hread : rs.Read chunkSize with ⟨buf, err, rs1⟩
    cases err with
    | some e => rfl
    | none =>
      by_cases hpos : buf.length > 0
      · simp only [hpos, if_true, sendFrame_onto, ih]
      · simp only [hpos, if_false, ih]

theorem ReadStream.Read_of_ready (rest : List Byte) (fault : Option Nat) (k : Nat)
    (hk : k ≠ 0) (hf : fault ≠ some 0) :
    ReadStream.Read { rest := rest, fault := fault } k
      = if rest = [] then ([], some FileErr.eof, { rest := rest, fault := fault })
        else (rest.take k, none, { rest := rest.drop k, fault := fault.map Nat.pred }) := by
  cases fault with
  | none => simp [ReadStream.Read, hk]
  | some n =>
    cases n with
    | zero => exact absurd rfl hf
    | succ n => simp [ReadStream.Read, hk]

/-- With a positive chunk size the read loop of `sendFile` ends, on every
file, also one whose reads fail. -/
theorem sendFileLoop_returns (chunkSize : Nat) (hc : 0 < chunkSize) (fuel : Nat) :
    ∀ (rs : ReadStream) (c : Conn), rs.rest.length + 1 ≤ fuel →
      ∃ c1, sendFileLoop fuel chunkSize rs c = .ok c1 := by
  induction fuel with
  | zero => intro rs c h; omega
  | succ fuel ih =>
    intro rs c hfuel
    have hc0 : chunkSize ≠ 0 := by omega
    obtain ⟨rest, fault⟩ := rs
    by_cases hf : fault = some 0
    · subst hf
      exact ⟨c, by simp [sendFileLoop, ReadStream.Read, hc0]⟩
    · simp only [sendFileLoop, ReadStream.Read_of_ready rest fault chunkSize hc0 hf]
      by_cases hrest : rest = []
      · simp only [hrest, if_true]; exact ⟨c, rfl⟩
      · simp only [hrest, if_false]
        have hlen : (rest.drop chunkSize).length + 1 ≤ fuel := by
          have : 0 < rest.length := List.length_pos.mpr hrest
          simp only [List.length_drop]
          simp only at hfuel
          omega
        by_cases hpos : (rest.take chunkSize).length > 0
        · simp only [hpos, if_true]
          exact ih _ _ hlen
        · simp only [hpos, if_false]
          exact ih _ _ hlen

/-- With a positive chunk size `sendFile` returns, and what it does to the
connection is to add the writes `sendFileWrites`; nothing else changes. -/
theorem sendFile_spec (w : World) (r : GoString) (hc : 0 < w.fh.chunkSize) :
    sendFile w r = .ok (w.withSocket
      { w.fh.socket with written := w.fh.socket.written ++ sendFileWrites w r }) := by
  have hbase : w.fh.socket = w.fh.socket.onto freshConn := (onto_freshConn _).symm
  have hfr : ∀ o, sendFrame r o w.fh.socket
      = w.fh.socket.onto (sendFrame r o freshConn) := by
    intro o
    rw [← sendFrame_onto, onto_freshConn]
  simp only [sendFile, sendFileWrites, World.withSocket]
  cases hop : w.fs.Open (filepathJoin w.fh.pathToFolder r) with
  | none =>
    simp only [hfr]
    rfl
  | some rs =>
    obtain ⟨c1, hrun⟩ := sendFileLoop_returns w.fh.chunkSize hc (rs.rest.length + 1) rs
      (sendFrame r SYNC_NEW_FILE_PATH freshConn) (le_refl _)
    simp only [hfr, sendFileLoop_onto, hrun, sendFrame_onto]
    rfl

theorem sendFileWrites_withSocket (w : World) (c : Conn) (r : GoString) :
    sendFileWrites (w.withSocket c) r = sendFileWrites w r := rfl

/-- The loop over the requested files sends them one after the other. -/
theorem sendFiles_spec (rs : List GoString) :
    ∀ (w : World), 0 < w.fh.chunkSize →
      sendFiles rs w = .ok (w.withSocket
        { w.fh.socket with
          written := w.fh.socket.written ++ (rs.map (sendFileWrites w)).flatten }) := by
  induction rs with
  | nil =>
    intro w _
    simp [sendFiles, World.withSocket]
  | cons r rs ih =>
    intro w hc
    simp only [sendFiles, sendFile_spec w r hc]
    rw [ih _ (by simpa [World.withSocket] using hc)]
    simp only [World.withSocket, List.map_cons, List.flatten_cons, List.append_assoc]
    rfl

/-! ## `strings.Split` and `strings.Join` -/

theorem stringsSplit_no_sep (x : GoString) (sep : Byte) (h : sep ∉ x) :
    stringsSplit x sep = [x] := by
  induction x with
  | nil => rfl
  | cons b x ih =>
    have hb : b ≠ sep := fun e => h (by simp [e])
    have hx : sep ∉ x := fun e => h (List.mem_cons_of_mem _ e)
    simp [stringsSplit, hb, ih hx, consHead]

theorem stringsSplit_append_sep (x t : GoString) (sep : Byte) (h : sep ∉ x) :
    stringsSplit (x ++ sep :: t) sep = x :: stringsSplit t sep := by
  induction x with
  | nil => simp [stringsSplit]
  | cons b x ih =>
    have hb : b ≠ sep := fun e => h (by simp [e])
    have hx : sep ∉ x := fun e => h (List.mem_cons_of_mem _ e)
    simp [stringsSplit, hb, ih hx, consHead]

/-- Splitting the join of pieces that do not contain the separator gives the
pieces back. -/
theorem stringsSplit_stringsJoin (rs : List GoString) (sep : Byte) (hne : rs ≠ [])
    (h : ∀ r ∈ rs, sep ∉ r) : stringsSplit (stringsJoin rs sep) sep = rs := by
  induction rs with
  | nil => exact absurd rfl hne
  | cons x rest ih =>
    cases rest with
    | nil => simpa [stringsJoin] using stringsSplit_no_sep x sep (h x (by simp))
    | cons y rest =>
      simp only [stringsJoin]
      rw [stringsSplit_append_sep _ _ _ (h x (by simp)),
        ih (by simp) (fun r hr => h r (List.mem_cons_of_mem _ hr))]

theorem stringsSplit_ne_nil (s : GoString) (sep : Byte) : stringsSplit s sep ≠ [] := by
  induction s with
  | nil => simp [stringsSplit]
  | cons b s ih =>
    simp only [stringsSplit]
    split
    · simp
    · cases h : stringsSplit s sep <;> simp [consHead]

/-! ## Dispatch: `INIT` -/

/-- C4. INIT dispatch order: on an `INIT` frame whose payload is the paths
`r1..rn` (`n ≥ 1`, none containing a newline) joined by newlines, with a
positive chunk size, `HandleData` returns, and the writes it has added to the
connection are those of `sendFile(r1)`, then `sendFile(r2)`, ..., then
`sendFile(rn)`; the frame is consumed and the rest of the session state is
unchanged. -/
theorem HandleData_init_order (w : World) (rs : List GoString) (ys : List Byte)
    (hne : rs ≠ []) (hnl : ∀ r ∈ rs, (10 : Byte) ∉ r)
    (hlen : (stringsJoin rs 10).length < 2 ^ 32) (hc : 0 < w.fh.chunkSize)
    (hopen : w.fh.socket.closed = false) (hfree : errorFree w.fh.socket.incoming)
    (hbytes : pendingBytes w.fh.socket.incoming
      = frameBytes { opcode := SYNC_INIT, payload := stringsJoin rs 10 } ++ ys) :
    ∃ evs, errorFree evs ∧ pendingBytes evs = ys
      ∧ HandleData w = .ok (w.withSocket
          { incoming := evs,
            written := w.fh.socket.written ++ (rs.map (sendFileWrites w)).flatten,
            closed := false }) := by
  obtain ⟨evs, hrun, hf, hp⟩ := readFrame_spec
    { opcode := SYNC_INIT, payload := stringsJoin rs 10 } (by simpa using hlen) ys
    w.fh.socket hopen hfree hbytes
  refine ⟨evs, hf, hp, ?_⟩
  have hlen0 : ¬ rs.length = 0 := by
    intro h; exact hne (List.length_eq_zero.mp h)
  simp only [HandleData, hrun, if_true, stringsSplit_stringsJoin rs 10 hne hnl, hlen0, if_false]
  rw [sendFiles_spec rs _ (by simpa [World.withSocket] using hc)]
  simp only [World.withSocket, hopen]
  rfl

/-- C4, witness: the scenario of the spec. The root holds `a.txt` (3 bytes)
and `sub/b.txt` (empty), the chunk size is 1 and the `INIT` payload is
`"a.txt\nsub/b.txt"`: the client sends `FILE_PATH a.txt`, three one-byte
`FILE_PART` frames, `FILE_END a.txt`, `FILE_PATH sub/b.txt`, `FILE_END sub/b.txt`. -/
theorem HandleData_init_order_witness :
    HandleData (scenarioWorld
        [RecvEvent.seg 0 ([15, 0, 0, 0] ++ ascii "a.txt\nsub/b.txt")])
      = .ok (World.withSocket (scenarioWorld []) (emit
          [{ opcode := SYNC_NEW_FILE_PATH, payload := ascii "a.txt" },
           { opcode := SYNC_NEW_FILE_PART, payload := [120] },
           { opcode := SYNC_NEW_FILE_PART, payload := [121] },
           { opcode := SYNC_NEW_FILE_PART, payload := [122] },
           { opcode := SYNC_NEW_FILE_END, payload := ascii "a.txt" },
           { opcode := SYNC_NEW_FILE_PATH, payload := ascii "sub/b.txt" },
           { opcode := SYNC_NEW_FILE_END, payload := ascii "sub/b.txt" }] freshConn)) := by
  obtain ⟨evs, hfree, hpend, hrun⟩ := HandleData_init_order
    (scenarioWorld [RecvEvent.seg 0 ([15, 0, 0, 0] ++ ascii "a.txt\nsub/b.txt")])
    [ascii "a.txt", ascii "sub/b.txt"] [] (by decide) (by decide) (by decide) (by decide)
    rfl (by simp [scenarioWorld, errorFree]) (by decide)
  rw [hrun, errorFree_nil_of_pending hfree hpend]
  decide

/-! ## `filepath.Dir` moves towards `.` or `/`

The recursion of `createDirectoriesRecursively` follows `filepath.Dir`; the
number of separators in the path goes down with every step until `.` or `/` is
reached, and those always exist. -/

theorem consHead_length (b : Byte) (l : List GoString) (h : l ≠ []) :
    (consHead b l).length = l.length := by
  cases l with
  | nil => exact absurd rfl h
  | cons x xs => rfl

theorem stringsSplit_length (s : GoString) (sep : Byte) :
    (stringsSplit s sep).length = s.count sep + 1 := by
  induction s with
  | nil => rfl
  | cons b s ih =>
    by_cases hb : b = sep
    · subst hb
      simp [stringsSplit, ih]
    · have hb2 : ¬ (b == sep) = true := by simpa using hb
      simp [stringsSplit, hb, consHead_length _ _ (stringsSplit_ne_nil s sep), ih,
        List.count_cons, hb2]

theorem stringsSplit_no_sep_mem (s : GoString) (sep : Byte) :
    ∀ c ∈ stringsSplit s sep, sep ∉ c := by
  induction s with
  | nil => intro c hc; simp [stringsSplit] at hc; simp [hc]
  | cons b s ih =>
    intro c hc
    by_cases hb : b = sep
    · simp only [stringsSplit, hb, if_true, List.mem_cons] at hc
      rcases hc with h | h
      · simp [h]
      · exact ih c h
    · simp only [stringsSplit, hb, if_false] at hc
      cases hsplit : stringsSplit s sep with
      | nil => exact absurd hsplit (stringsSplit_ne_nil s sep)
      | cons x xs =>
        rw [hsplit] at hc ih
        simp only [consHead, List.mem_cons] at hc
        rcases hc with h | h
        · subst h
          have hx := ih x (by simp)
          intro hmem
          rcases List.mem_cons.mp hmem with h1 | h1
          · exact hb h1.symm
          · exact hx h1
        · exact ih c (by simp [h])

/-- A string that ends with the separator has a last piece that is empty: the
non-empty pieces are at most as many as the separators. -/
theorem nonEmptyCount_split_trailing (x : GoString) (sep : Byte) :
    nonEmptyCount (stringsSplit (x ++ [sep]) sep)
        + (if (stringsSplit (x ++ [sep]) sep).head? = some [] then 1 else 0)
      ≤ (x ++ [sep]).count sep := by
  induction x with
  | nil => simp [stringsSplit, nonEmptyCount]
  | cons b x ih =>
    have e : (b :: x) ++ [sep] = b :: (x ++ [sep]) := rfl
    rw [e]
    by_cases hb : b = sep
    · subst hb
      simp only [stringsSplit, if_true, nonEmptyCount, List.head?_cons, List.count_cons_self]
      split at ih <;> omega
    · have hb2 : ¬ (b == sep) = true := by simpa using hb
      simp only [stringsSplit, hb, if_false, List.count_cons, hb2]
      cases hsplit : stringsSplit (x ++ [sep]) sep with
      | nil => exact absurd hsplit (stringsSplit_ne_nil _ sep)
      | cons y ys =>
        rw [hsplit] at ih
        simp only [nonEmptyCount, List.head?_cons, Option.some.injEq] at ih
        simp only [consHead, nonEmptyCount, List.head?_cons, Option.some.injEq,
          List.cons_ne_nil, if_false]
        by_cases hy : y = []
        · simp only [hy, if_true] at ih
          omega
        · simp only [hy, if_false] at ih
          omega

theorem cleanStep_length (rooted : Bool) (out : List GoString) (elem : GoString) :
    (cleanStep rooted out elem).length ≤ out.length + (if elem = [] then 0 else 1) := by
  unfold cleanStep
  by_cases h1 : elem = []
  · simp [h1]
  · simp only [h1, if_false]
    by_cases h2 : elem = [46]
    · simp [h2]
    · simp only [h2, if_false]
      by_cases h3 : elem = [46, 46]
      · simp only [h3, if_true]
        cases out with
        | nil => cases rooted <;> simp
        | cons top below =>
          simp only
          split <;> simp only [List.length_cons] <;> omega
      · simp [h3]

theorem cleanStep_mem (rooted : Bool) (out : List GoString) (elem : GoString) :
    ∀ c ∈ cleanStep rooted out elem, c ∈ out ∨ c = elem := by
  intro c hc
  unfold cleanStep at hc
  by_cases h1 : elem = []
  · simp only [h1, if_true] at hc; exact Or.inl hc
  · simp only [h1, if_false] at hc
    by_cases h2 : elem = [46]
    · simp only [h2, if_true] at hc; exact Or.inl hc
    · simp only [h2, if_false] at hc
      by_cases h3 : elem = [46, 46]
      · simp only [h3, if_true] at hc
        cases out with
        | nil =>
          cases rooted
          · simp at hc; exact Or.inr (by rw [hc, h3])
          · simp at hc
        | cons top below =>
          simp only at hc
          split at hc
          · rcases List.mem_cons.mp hc with h | h
            · exact Or.inr (by rw [h, h3])
            · exact Or.inl h
          · exact Or.inl (List.mem_cons_of_mem _ hc)
      · simp only [h3, if_false] at hc
        rcases List.mem_cons.mp hc with h | h
        · exact Or.inr h
        · exact Or.inl h

theorem foldl_cleanStep_length (rooted : Bool) (comps : List GoString) :
    ∀ out : List GoString,
      (comps.foldl (cleanStep rooted) out).length ≤ out.length + nonEmptyCount comps := by
  induction comps with
  | nil => intro out; simp [nonEmptyCount]
  | cons e comps ih =>
    intro out
    have h1 := ih (cleanStep rooted out e)
    have h2 := cleanStep_length rooted out e
    simp only [List.foldl_cons, nonEmptyCount]
    omega

theorem foldl_cleanStep_mem (rooted : Bool) (comps : List GoString) :
    ∀ out : List GoString, ∀ c ∈ comps.foldl (cleanStep rooted) out, c ∈ out ∨ c ∈ comps := by
  induction comps with
  | nil => intro out c hc; exact Or.inl hc
  | cons e comps ih =>
    intro out c hc
    rcases ih (cleanStep rooted out e) c hc with h | h
    · rcases cleanStep_mem rooted out e c h with h1 | h1
      · exact Or.inl h1
      · exact Or.inr (by simp [h1])
    · exact Or.inr (List.mem_cons_of_mem _ h)

theorem count_stringsJoin (xs : List GoString) (sep : Byte) (h : ∀ x ∈ xs, sep ∉ x) :
    (stringsJoin xs sep).count sep = xs.length - 1 := by
  induction xs with
  | nil => rfl
  | cons x rest ih =>
    cases rest with
    | nil => simpa [stringsJoin] using List.count_eq_zero.mpr (h x (by simp))
    | cons y rest =>
      have hx : x.count sep = 0 := List.count_eq_zero.mpr (h x (by simp))
      have := ih (fun z hz => h z (List.mem_cons_of_mem _ hz))
      simp only [stringsJoin, List.count_append, List.count_cons_self, hx, this]
      simp

theorem count_clean_body (rooted : Bool) (s : GoString) :
    (stringsJoin ((stringsSplit s 47).foldl (cleanStep rooted) []).reverse 47).count 47
      = ((stringsSplit s 47).foldl (cleanStep rooted) []).length - 1 := by
  rw [count_stringsJoin, List.length_reverse]
  intro x hx
  rcases foldl_cleanStep_mem rooted _ [] x (List.mem_reverse.mp hx) with h | h
  · simp at h
  · exact stringsSplit_no_sep_mem s 47 x h

/-- Cleaning a path that ends with a separator gives `.`, `/`, or a path with
fewer separators. -/
theorem filepathClean_trailing (x : GoString) :
    filepathClean (x ++ [47]) = [46] ∨ filepathClean (x ++ [47]) = [47]
      ∨ (filepathClean (x ++ [47])).count 47 < (x ++ [47]).count 47 := by
  have hne : x ++ [47] ≠ [] := by simp
  by_cases hr : (x ++ [47]).head? = some 47
  · -- rooted
    cases x with
    | nil => right; left; decide
    | cons b x =>
      have hb : b = 47 := by simpa using hr
      subst hb
      have hsplit : stringsSplit ((47 :: x) ++ [47]) 47 = [] :: stringsSplit (x ++ [47]) 47 := by
        simp [stringsSplit]
      have hlen := foldl_cleanStep_length true (stringsSplit (x ++ [47]) 47) []
      have hcount := nonEmptyCount_split_trailing x 47
      have hbody := count_clean_body true (x ++ [47])
      have hclean : filepathClean ((47 :: x) ++ [47])
          = 47 :: stringsJoin ((stringsSplit (x ++ [47]) 47).foldl (cleanStep true) []).reverse 47 := by
        simp only [filepathClean, hne, hsplit, List.foldl_cons, cleanStep]
        simp
      rw [hclean]
      cases hout : (stringsSplit (x ++ [47]) 47).foldl (cleanStep true) [] with
      | nil => right; left; rfl
      | cons top below =>
        right; right
        rw [hout] at hlen hbody
        simp only [List.count_cons_self, hbody, List.length_cons, List.cons_append]
        simp only [List.length_cons, List.length_nil] at hlen
        omega
  · -- not rooted
    have hlen := foldl_cleanStep_length false (stringsSplit (x ++ [47]) 47) []
    have hcount := nonEmptyCount_split_trailing x 47
    have hbody := count_clean_body false (x ++ [47])
    have hrf : decide ((x ++ [47]).head? = some 47) = false := by simpa using hr
    by_cases hb : stringsJoin
        ((stringsSplit (x ++ [47]) 47).foldl (cleanStep false) []).reverse 47 = []
    · left
      simp only [filepathClean, hne, if_false, hrf, hb]
      simp
    · right; right
      have hclean : filepathClean (x ++ [47])
          = stringsJoin ((stringsSplit (x ++ [47]) 47).foldl (cleanStep false) []).reverse 47 := by
        simp only [filepathClean, hne, if_false, hrf, hb]
        simp
      rw [hclean, hbody]
      cases hout : (stringsSplit (x ++ [47]) 47).foldl (cleanStep false) [] with
      | nil => rw [hout] at hb; exact absurd rfl hb
      | cons top below =>
        rw [hout] at hlen
        simp only [List.length_cons, List.length_nil] at hlen ⊢
        omega

theorem dropWhile_ne_cases (l : List Byte) :
    l.dropWhile (fun b => b ≠ 47) = [] ∨ ∃ t, l.dropWhile (fun b => b ≠ 47) = 47 :: t := by
  induction l with
  | nil => left; rfl
  | cons a l ih =>
    by_cases ha : a = 47
    · right; exact ⟨l, by simp [List.dropWhile, ha]⟩
    · simpa [List.dropWhile, ha] using ih

/-- Go `filepath.Dir` gives `.`, `/`, or a path with fewer separators. -/
theorem filepathDir_measure (p : GoString) :
    filepathDir p = [46] ∨ filepathDir p = [47] ∨ (filepathDir p).count 47 < p.count 47 := by
  unfold filepathDir
  rcases dropWhile_ne_cases p.reverse with h | ⟨t, h⟩
  · left; rw [h]; rfl
  · have hle : (p.reverse.dropWhile (fun b => b ≠ 47)).count 47 ≤ p.count 47 := by
      have := (List.dropWhile_sublist (fun b => decide (b ≠ 47)) (l := p.reverse)).count_le 47
      simpa using this
    rw [h] at hle ⊢
    have hrev : (47 :: t).reverse = t.reverse ++ [47] := by simp
    rw [hrev]
    have hc : (t.reverse ++ [47]).count 47 ≤ p.count 47 := by
      have : (t.reverse ++ [47]).count 47 = (47 :: t).count 47 := by
        rw [← hrev, List.count_reverse]
      omega
    rcases filepathClean_trailing t.reverse with h1 | h1 | h1
    · exact Or.inl h1
    · exact Or.inr (Or.inl h1)
    · exact Or.inr (Or.inr (by omega))

theorem createDirectoriesLoop_returns (fuel : Nat) :
    ∀ (fs : FS) (dirPath : GoString), dirPath.count 47 + 1 ≤ fuel →
      ∃ fs1, createDirectoriesLoop fuel fs dirPath = some fs1 := by
  induction fuel with
  | zero => intro fs dirPath h; omega
  | succ fuel ih =>
    intro fs dirPath hfuel
    simp only [createDirectoriesLoop]
    by_cases hstat : fs.stat (filepathDir dirPath) = none
    · have hlt : (filepathDir dirPath).count 47 < dirPath.count 47 := by
        rcases filepathDir_measure dirPath with h | h | h
        · rw [h] at hstat; simp [FS.stat] at hstat
        · rw [h] at hstat; simp [FS.stat] at hstat
        · exact h
      obtain ⟨fs1, h1⟩ := ih fs (filepathDir dirPath) (by omega)
      simp only [hstat, if_true, h1]
      split <;> exact ⟨_, rfl⟩
    · simp only [hstat, if_false]
      split <;> exact ⟨_, rfl⟩

/-- Go `createDirectoriesRecursively` always returns. -/
theorem createDirectoriesRecursively_returns (fs : FS) (dirPath : GoString) :
    ∃ fs1, createDirectoriesRecursively fs dirPath = some fs1 :=
  createDirectoriesLoop_returns _ fs dirPath
    (by have := List.count_le_length 47 dirPath; omega)

/-! ## The file table -/

theorem FS.lookup_set_self (fs : FS) (p : GoString) (n : Node) :
    (fs.set p n).lookup p = some n := by
  induction fs with
  | nil => simp [FS.set, FS.lookup]
  | cons e fs ih =>
    obtain ⟨q, m⟩ := e
    by_cases h : q = p
    · simp [FS.set, FS.lookup, h]
    · simp [FS.set, FS.lookup, h, ih]

theorem FS.set_set (fs : FS) (p : GoString) (n m : Node) :
    (fs.set p n).set p m = fs.set p m := by
  induction fs with
  | nil => simp [FS.set]
  | cons e fs ih =>
    obtain ⟨q, k⟩ := e
    by_cases h : q = p
    · simp [FS.set, h]
    · simp [FS.set, h, ih]

theorem FS.set_of_lookup (fs : FS) (p : GoString) (n : Node) (h : fs.lookup p = some n) :
    fs.set p n = fs := by
  induction fs with
  | nil => simp [FS.lookup] at h
  | cons e fs ih =>
    obtain ⟨q, k⟩ := e
    by_cases hq : q = p
    · simp only [FS.lookup, hq, if_true, Option.some.injEq] at h
      simp [FS.set, hq, h]
    · simp only [FS.lookup, hq, if_false] at h
      simp [FS.set, hq, ih h]

/-- A file that `os.Create` has just opened is a regular file and empty. -/
theorem FS.Create_lookup (fs fs2 : FS) (p : GoString) (h : fs.Create p = some fs2) :
    ∃ fault, fs2.lookup p = some (Node.file [] fault) := by
  unfold FS.Create at h
  split at h
  · next c fault _ =>
    simp only [Option.some.injEq] at h
    exact ⟨fault, by rw [← h, FS.lookup_set_self]⟩
  · exact absurd h (by simp)
  · split at h
    · simp only [Option.some.injEq] at h
      exact ⟨none, by rw [← h, FS.lookup_set_self]⟩
    · exact absurd h (by simp)

/-! ## Receive-File -/

theorem framesBytes_nil : framesBytes [] = [] := rfl

theorem framesBytes_cons (f : Frame) (frames : List Frame) :
    framesBytes (f :: frames) = frameBytes f ++ framesBytes frames := rfl

/-- The receive loop, entered before a sequence of `FILE_PART` frames that is
followed by a frame `last` with another opcode: the payloads are appended to
the file in order, `last` is the last frame read, and the loop ends with `last`
when it is `FILE_END` and with `os.Exit(1)` otherwise. -/
theorem receiveFrom_spec (filePath : GoString) (last : Frame) (ys : List Byte)
    (fault : Option Nat) (hlast : last.opcode ≠ SYNC_NEW_FILE_PART)
    (hlastlen : last.payload.length < 4294967296) (parts : List (List Byte)) :
    ∀ (content : List Byte) (w : World) (fuel : Nat),
      (∀ q ∈ parts, q.length < 4294967296) →
      w.fs.lookup filePath = some (Node.file content fault) →
      w.fh.socket.closed = false → errorFree w.fh.socket.incoming →
      pendingBytes w.fh.socket.incoming
        = framesBytes (partFrames parts) ++ (frameBytes last ++ ys) →
      parts.length + 1 ≤ fuel →
      ∃ evs, errorFree evs ∧ pendingBytes evs = ys
        ∧ receiveFrom fuel filePath w
          = if last.opcode = SYNC_NEW_FILE_END then
              .ok (last, { fh := { w.fh with socket := { w.fh.socket with incoming := evs } },
                           fs := w.fs.set filePath (Node.file (content ++ wire parts) fault) })
            else
              .exit { fh := { w.fh with socket := { w.fh.socket with incoming := evs } },
                      fs := w.fs.set filePath (Node.file (content ++ wire parts) fault) } := by
  induction parts with
  | nil =>
    intro content w fuel _ hlook hopen hfree hbytes hfuel
    obtain ⟨evs, hrun, hf, hp⟩ := readFrame_spec last hlastlen ys w.fh.socket hopen hfree
      (by simpa [partFrames, framesBytes_nil] using hbytes)
    refine ⟨evs, hf, hp, ?_⟩
    obtain ⟨fuel, rfl⟩ : ∃ k, fuel = k + 1 := ⟨fuel - 1, by omega⟩
    have hset : w.fs.set filePath (Node.file (content ++ wire []) fault) = w.fs := by
      simpa [wire] using FS.set_of_lookup _ _ _ hlook
    simp only [receiveFrom, hrun, receiveLoop, hset, World.withSocket]
    by_cases h3 : last.opcode = SYNC_NEW_FILE_END
    · simp only [h3, if_true]
    · simp only [h3, if_false, hlast, ne_eq, not_false_eq_true, if_true]
  | cons q parts ih =>
    intro content w fuel hlen hlook hopen hfree hbytes hfuel
    obtain ⟨fuel, rfl⟩ : ∃ k, fuel = k + 1 := ⟨fuel - 1, by simp at hfuel; omega⟩
    have hb : pendingBytes w.fh.socket.incoming
        = frameBytes { opcode := SYNC_NEW_FILE_PART, payload := q }
          ++ (framesBytes (partFrames parts) ++ (frameBytes last ++ ys)) := by
      rw [hbytes]; simp [partFrames, framesBytes_cons]
    obtain ⟨evs1, hrun1, hf1, hp1⟩ := readFrame_spec
      { opcode := SYNC_NEW_FILE_PART, payload := q } (hlen q (by simp)) _ w.fh.socket
      hopen hfree hb
    have hstep := ih (content ++ q)
      { fh := { w.fh with socket := { w.fh.socket with incoming := evs1 } },
        fs := w.fs.set filePath (Node.file (content ++ q) fault) } fuel
      (fun x hx => hlen x (List.mem_cons_of_mem _ hx)) (FS.lookup_set_self _ _ _)
      hopen hf1 hp1 (by simp at hfuel; omega)
    obtain ⟨evs, hf, hp, hrun⟩ := hstep
    refine ⟨evs, hf, hp, ?_⟩
    have hloop : receiveFrom (fuel + 1) filePath w
        = receiveFrom fuel filePath
            { fh := { w.fh with socket := { w.fh.socket with incoming := evs1 } },
              fs := w.fs.set filePath (Node.file (content ++ q) fault) } := by
      simp only [receiveFrom, hrun1, receiveLoop, World.withSocket, FS.Write, hlook,
        World.withFS]
      simp
    rw [hloop, hrun]
    simp only [FS.set_set, wire, List.append_assoc]

theorem frameBytes_length (f : Frame) : (frameBytes f).length = 5 + f.payload.length := by
  rw [frameBytes_eq]; simp [putUint32_length]; omega

theorem framesBytes_partFrames_length (parts : List (List Byte)) :
    parts.length ≤ (framesBytes (partFrames parts)).length := by
  induction parts with
  | nil => simp
  | cons q parts ih =>
    simp only [partFrames, List.map_cons, framesBytes_cons, List.length_append,
      frameBytes_length, List.length_cons] at ih ⊢
    have : parts.length ≤ (framesBytes (partFrames parts)).length := ih
    simp only [partFrames] at this
    omega

/-- The receive branch of `HandleData`: a `FILE_PATH` frame for `p`, then
`FILE_PART` frames, then a frame `last` with another opcode. When the file
can be created, the payloads of the `FILE_PART` frames are its content
afterwards and everything behind `last` is still unread; `HandleData` returns
with the joined path added to the known paths when `last` is `FILE_END` with
payload `p`, and exits otherwise. -/
theorem HandleData_receive_spec (w : World) (p : GoString) (parts : List (List Byte))
    (last : Frame) (ys : List Byte) (fs1 fs2 : FS)
    (hp : p.length < 4294967296) (hparts : ∀ q ∈ parts, q.length < 4294967296)
    (hlast : last.opcode ≠ SYNC_NEW_FILE_PART) (hlastlen : last.payload.length < 4294967296)
    (hopen : w.fh.socket.closed = false) (hfree : errorFree w.fh.socket.incoming)
    (hbytes : pendingBytes w.fh.socket.incoming
      = frameBytes { opcode := SYNC_NEW_FILE_PATH, payload := p }
        ++ (framesBytes (partFrames parts) ++ (frameBytes last ++ ys)))
    (hdirs : createDirectoriesRecursively w.fs
      (filepathJoin w.fh.pathToFolder (filepathDir p)) = some fs1)
    (hcreate : fs1.Create (filepathJoin w.fh.pathToFolder p) = some fs2) :
    ∃ evs fault, errorFree evs ∧ pendingBytes evs = ys
      ∧ HandleData w
        = if last.opcode = SYNC_NEW_FILE_END ∧ last.payload = p then
            .ok { fh := { w.fh with
                          socket := { w.fh.socket with incoming := evs },
                          filePaths := w.fh.filePaths ++ [filepathJoin w.fh.pathToFolder p] },
                  fs := fs2.set (filepathJoin w.fh.pathToFolder p)
                    (Node.file (wire parts) fault) }
          else
            .exit { fh := { w.fh with socket := { w.fh.socket with incoming := evs } },
                    fs := fs2.set (filepathJoin w.fh.pathToFolder p)
                      (Node.file (wire parts) fault) } := by
  obtain ⟨evs1, hrun1, hf1, hp1⟩ := readFrame_spec
    { opcode := SYNC_NEW_FILE_PATH, payload := p } hp _ w.fh.socket hopen hfree hbytes
  obtain ⟨fault, hlook⟩ := FS.Create_lookup fs1 fs2 _ hcreate
  have hfuel : parts.length + 1 ≤ (pendingBytes evs1).length + 1 := by
    have := framesBytes_partFrames_length parts
    rw [hp1, List.length_append]
    omega
  obtain ⟨evs, hf, hpend, hrun⟩ := receiveFrom_spec (filepathJoin w.fh.pathToFolder p) last ys
    fault hlast hlastlen parts []
    { fh := { w.fh with socket := { w.fh.socket with incoming := evs1 } }, fs := fs2 }
    ((pendingBytes evs1).length + 1) hparts hlook hopen hf1 hp1 hfuel
  refine ⟨evs, fault, hf, hpend, ?_⟩
  have h10 : ¬ (SYNC_NEW_FILE_PATH = SYNC_INIT) := by decide
  simp only [HandleData, hrun1, h10, if_false, if_true, World.withSocket, hdirs, hcreate,
    World.withFS]
  simp only [List.nil_append] at hrun
  rw [hrun]
  by_cases h3 : last.opcode = SYNC_NEW_FILE_END
  · by_cases hq : last.payload = p
    · simp [h3, hq]
    · have hq2 : p ≠ last.payload := fun e => hq e.symm
      simp [h3, hq2, hq]
  · simp [h3]

theorem emit_written (frames : List Frame) :
    ∀ c : Conn, (emit frames c).written = c.written ++ frames.map frameBytes := by
  induction frames with
  | nil => intro c; simp [emit]
  | cons f frames ih =>
    intro c
    rw [emit_cons, ih, sendFrame_written]
    simp [frameBytes_eq]

theorem length_le_wire (parts : List (List Byte)) :
    ∀ q ∈ parts, q.length ≤ (wire parts).length := by
  induction parts with
  | nil => intro q hq; simp at hq
  | cons x parts ih =>
    intro q hq
    simp only [wire, List.length_append]
    rcases List.mem_cons.mp hq with h | h
    · subst h; omega
    · have := ih q h; omega

theorem framesBytes_append (xs ys : List Frame) :
    framesBytes (xs ++ ys) = framesBytes xs ++ framesBytes ys := by
  induction xs with
  | nil => rfl
  | cons f xs ih => simp [framesBytes_cons, ih]

/-- C5. The code on an `INIT` frame with an empty payload: `strings.Split`
gives the one path `""`, so the length test does not end the call, and
`sendFile("")` writes a `FILE_PATH` frame with an empty payload, opens the root
directory, fails to read it, and writes a `FILE_END` frame with an empty
payload. -/
theorem HandleData_empty_init_sends_frames :
    HandleData (scenarioWorld [RecvEvent.seg 0 [0, 0, 0, 0]])
      = .ok (World.withSocket (scenarioWorld []) (emit
          [{ opcode := SYNC_NEW_FILE_PATH, payload := [] },
           { opcode := SYNC_NEW_FILE_END, payload := [] }] freshConn)) := by
  decide

/-- What `sendFile(r)` writes for a file that opens with content `b` and reads
without fault: `FILE_PATH r`, `FILE_PART` frames whose payloads concatenate to
`b`, and `FILE_END r`; every part fits the length field when the chunk size or
the file does. -/
theorem sendFileWrites_of_file (ws : World) (r b : List Byte)
    (hc : 0 < ws.fh.chunkSize)
    (hfit : ws.fh.chunkSize < 4294967296 ∨ b.length < 4294967296)
    (hsrc : ws.fs.Open (filepathJoin ws.fh.pathToFolder r) = some { rest := b, fault := none }) :
    ∃ parts : List (List Byte), wire parts = b ∧ (∀ q ∈ parts, q.length < 4294967296)
      ∧ wire (sendFileWrites ws r)
        = frameBytes { opcode := SYNC_NEW_FILE_PATH, payload := r }
          ++ (framesBytes (partFrames parts)
            ++ frameBytes { opcode := SYNC_NEW_FILE_END, payload := r }) := by
  obtain ⟨parts, hcat, hlen, _, hloop⟩ :=
    sendFileLoop_spec ws.fh.chunkSize hc (b.length + 1) b
      (sendFrame r SYNC_NEW_FILE_PATH freshConn) (le_refl _)
  have hsend : sendFile (ws.withSocket freshConn) r
      = .ok ((ws.withSocket freshConn).withSocket (emit
          ([{ opcode := SYNC_NEW_FILE_PATH, payload := r }] ++ partFrames parts
            ++ [{ opcode := SYNC_NEW_FILE_END, payload := r }]) freshConn)) := by
    have hsrc1 : (ws.withSocket freshConn).fs.Open
        (filepathJoin (ws.withSocket freshConn).fh.pathToFolder r)
        = some { rest := b, fault := none } := hsrc
    have hloop1 : sendFileLoop (b.length + 1) (ws.withSocket freshConn).fh.chunkSize
        { rest := b, fault := none }
        (sendFrame r SYNC_NEW_FILE_PATH (ws.withSocket freshConn).fh.socket)
        = .ok (emit (partFrames parts) (sendFrame r SYNC_NEW_FILE_PATH freshConn)) := hloop
    simp only [sendFile, hsrc1, hloop1, emit_append, emit_cons, emit_nil]
  refine ⟨parts, hcat, ?_, ?_⟩
  · intro q hq
    have h1 := (hlen q hq).2
    have h2 := length_le_wire parts q hq
    rw [hcat] at h2
    rcases hfit with h | h <;> omega
  · have h1 : sendFileWrites ws r
        = (emit ([{ opcode := SYNC_NEW_FILE_PATH, payload := r }] ++ partFrames parts
            ++ [{ opcode := SYNC_NEW_FILE_END, payload := r }]) freshConn).written := by
      unfold sendFileWrites
      rw [hsend]
      rfl
    have h2 : ∀ frames : List Frame, wire (frames.map frameBytes) = framesBytes frames :=
      fun _ => rfl
    rw [h1, emit_written]
    simp only [freshConn, List.nil_append]
    rw [h2, framesBytes_append, framesBytes_append]
    simp [framesBytes, wire]

/-- When the destination file of a Receive-File cannot be created,
`HandleData` exits. -/
theorem HandleData_receive_create_fails (w : World) (p : GoString) (rest : List Byte)
    (fs1 : FS) (hp : p.length < 4294967296)
    (hopen : w.fh.socket.closed = false) (hfree : errorFree w.fh.socket.incoming)
    (hbytes : pendingBytes w.fh.socket.incoming
      = frameBytes { opcode := SYNC_NEW_FILE_PATH, payload := p } ++ rest)
    (hdirs : createDirectoriesRecursively w.fs
      (filepathJoin w.fh.pathToFolder (filepathDir p)) = some fs1)
    (hcreate : fs1.Create (filepathJoin w.fh.pathToFolder p) = none) :
    ∃ evs, HandleData w = .exit
      { fh := { w.fh with socket := { w.fh.socket with incoming := evs } }, fs := fs1 } := by
  obtain ⟨evs1, hrun1, _, _⟩ := readFrame_spec
    { opcode := SYNC_NEW_FILE_PATH, payload := p } hp _ w.fh.socket hopen hfree hbytes
  have h10 : ¬ (SYNC_NEW_FILE_PATH = SYNC_INIT) := by decide
  refine ⟨evs1, ?_⟩
  simp only [HandleData, hrun1, h10, if_false, if_true, World.withSocket, hdirs, hcreate,
    World.withFS]

/-- C6. Byte-exact file transfer: the sender's file `r` opens with content `b`
and reads without fault, the chunk size is positive, and the path and every
chunk fit the 32-bit length field; the receiver is fed the bytes that
`sendFile(r)` wrote. Then whenever `HandleData` returns on the receiver, the
file at `Join(root, r)` has content exactly `b`, whatever it held before; and
`HandleData` does return whenever the destination file can be created after
the directories have been made. -/
theorem transfer_byte_exact (ws wr : World) (r b ys : List Byte)
    (hc : 0 < ws.fh.chunkSize) (hfit : ws.fh.chunkSize < 2 ^ 32 ∨ b.length < 2 ^ 32)
    (hr : r.length < 2 ^ 32)
    (hsrc : ws.fs.Open (filepathJoin ws.fh.pathToFolder r) = some { rest := b, fault := none })
    (hopen : wr.fh.socket.closed = false) (hfree : errorFree wr.fh.socket.incoming)
    (hbytes : pendingBytes wr.fh.socket.incoming = wire (sendFileWrites ws r) ++ ys) :
    (∀ w1, HandleData wr = .ok w1
        → w1.fs.content (filepathJoin wr.fh.pathToFolder r) = some b)
      ∧ (∀ fs1 fs2,
          createDirectoriesRecursively wr.fs
            (filepathJoin wr.fh.pathToFolder (filepathDir r)) = some fs1 →
          fs1.Create (filepathJoin wr.fh.pathToFolder r) = some fs2 →
          ∃ w1, HandleData wr = .ok w1) := by
  have hr1 : r.length < 4294967296 := by simpa using hr
  obtain ⟨parts, hcat, hparts, hw⟩ := sendFileWrites_of_file ws r b hc (by simpa using hfit) hsrc
  have hend : ({ opcode := SYNC_NEW_FILE_END, payload := r } : Frame).opcode
      ≠ SYNC_NEW_FILE_PART := by
    show SYNC_NEW_FILE_END ≠ SYNC_NEW_FILE_PART
    decide
  have hstream : pendingBytes wr.fh.socket.incoming
      = frameBytes { opcode := SYNC_NEW_FILE_PATH, payload := r }
        ++ (framesBytes (partFrames parts)
          ++ (frameBytes { opcode := SYNC_NEW_FILE_END, payload := r } ++ ys)) := by
    rw [hbytes, hw]; simp only [List.append_assoc]
  have hmain : ∀ fs1 fs2,
      createDirectoriesRecursively wr.fs
        (filepathJoin wr.fh.pathToFolder (filepathDir r)) = some fs1 →
      fs1.Create (filepathJoin wr.fh.pathToFolder r) = some fs2 →
      ∃ w1, HandleData wr = .ok w1
        ∧ w1.fs.content (filepathJoin wr.fh.pathToFolder r) = some b := by
    intro fs1 fs2 hdirs hcreate
    obtain ⟨evs, fault, _, _, hrun⟩ := HandleData_receive_spec wr r parts
      { opcode := SYNC_NEW_FILE_END, payload := r } ys fs1 fs2 hr1 hparts hend hr1
      hopen hfree hstream hdirs hcreate
    rw [if_pos ⟨rfl, rfl⟩] at hrun
    exact ⟨_, hrun, by simp only [FS.content, FS.lookup_set_self, hcat]⟩
  constructor
  · intro w1 hret
    obtain ⟨fs1, hdirs⟩ := createDirectoriesRecursively_returns wr.fs
      (filepathJoin wr.fh.pathToFolder (filepathDir r))
    cases hcreate : fs1.Create (filepathJoin wr.fh.pathToFolder r) with
    | none =>
      obtain ⟨w2, hexit⟩ := HandleData_receive_create_fails wr r _ fs1 hr1 hopen hfree
        hstream hdirs hcreate
      rw [hexit] at hret
      cases hret
    | some fs2 =>
      obtain ⟨w2, hrun, hcontent⟩ := hmain fs1 fs2 hdirs hcreate
      rw [hrun] at hret
      cases hret
      exact hcontent
  · intro fs1 fs2 hdirs hcreate
    obtain ⟨w1, hrun, _⟩ := hmain fs1 fs2 hdirs hcreate
    exact ⟨w1, hrun⟩

/-- C6, witness: the three bytes of the scenario's `a.txt`, sent with chunk
size 1, replace the five bytes of the receiver's old `dst/a.txt`. -/
theorem transfer_byte_exact_witness :
    ∃ w1, HandleData (receiverWorld
          (oneSegment (wire (sendFileWrites (scenarioWorld []) (ascii "a.txt"))))) = .ok w1
      ∧ w1.fs.content (filepathJoin (ascii "dst") (ascii "a.txt")) = some [120, 121, 122] := by
  have h := transfer_byte_exact (scenarioWorld [])
    (receiverWorld (oneSegment (wire (sendFileWrites (scenarioWorld []) (ascii "a.txt")))))
    (ascii "a.txt") [120, 121, 122] []
    (by decide) (Or.inl (by decide)) (by decide) (by decide) rfl (by decide) (by decide)
  obtain ⟨w1, hw1⟩ := h.2
    [(ascii "dst", Node.dir), (ascii "dst/a.txt", Node.file [9, 9, 9, 9, 9] none)]
    [(ascii "dst", Node.dir), (ascii "dst/a.txt", Node.file [] none)]
    (by decide) (by decide)
  exact ⟨w1, hw1, h.1 w1 hw1⟩

/-- C7. `FILE_END` path mismatch is fatal: in a Receive-File started by
`FILE_PATH p` (the destination file could be created), after any number of
`FILE_PART` frames, a `FILE_END` frame whose payload differs from `p` makes
`HandleData` exit: the known paths are as before and the bytes behind the
`FILE_END` frame are still unread. -/
theorem HandleData_end_mismatch (w : World) (p q : GoString) (parts : List (List Byte))
    (ys : List Byte) (fs1 fs2 : FS) (hne : q ≠ p)
    (hp : p.length < 2 ^ 32) (hparts : ∀ x ∈ parts, x.length < 2 ^ 32)
    (hq : q.length < 2 ^ 32)
    (hopen : w.fh.socket.closed = false) (hfree : errorFree w.fh.socket.incoming)
    (hbytes : pendingBytes w.fh.socket.incoming
      = frameBytes { opcode := SYNC_NEW_FILE_PATH, payload := p }
        ++ (framesBytes (partFrames parts)
          ++ (frameBytes { opcode := SYNC_NEW_FILE_END, payload := q } ++ ys)))
    (hdirs : createDirectoriesRecursively w.fs
      (filepathJoin w.fh.pathToFolder (filepathDir p)) = some fs1)
    (hcreate : fs1.Create (filepathJoin w.fh.pathToFolder p) = some fs2) :
    ∃ w1, HandleData w = .exit w1 ∧ w1.fh.filePaths = w.fh.filePaths
      ∧ errorFree w1.fh.socket.incoming ∧ pendingBytes w1.fh.socket.incoming = ys := by
  have hend : ({ opcode := SYNC_NEW_FILE_END, payload := q } : Frame).opcode
      ≠ SYNC_NEW_FILE_PART := by
    show SYNC_NEW_FILE_END ≠ SYNC_NEW_FILE_PART
    decide
  obtain ⟨evs, fault, hf, hpend, hrun⟩ := HandleData_receive_spec w p parts
    { opcode := SYNC_NEW_FILE_END, payload := q } ys fs1 fs2 (by simpa using hp)
    (fun x hx => by simpa using hparts x hx) hend (by simpa using hq)
    hopen hfree hbytes hdirs hcreate
  rw [if_neg (fun h => hne h.2)] at hrun
  exact ⟨_, hrun, rfl, hf, hpend⟩

/-- C7, witness: `FILE_PATH a.txt`, one part, `FILE_END b.txt`, and a `CLOSE`
frame behind it that stays unread. -/
theorem HandleData_end_mismatch_witness :
    ∃ w1, HandleData (receiverWorld (oneSegment (framesBytes
          [{ opcode := SYNC_NEW_FILE_PATH, payload := ascii "a.txt" },
           { opcode := SYNC_NEW_FILE_PART, payload := [1, 2] },
           { opcode := SYNC_NEW_FILE_END, payload := ascii "b.txt" },
           { opcode := SYNC_CLOSE, payload := [] }]))) = .exit w1
      ∧ w1.fh.filePaths = []
      ∧ errorFree w1.fh.socket.incoming
      ∧ pendingBytes w1.fh.socket.incoming = [8, 0, 0, 0, 0] :=
  HandleData_end_mismatch
    (receiverWorld (oneSegment (framesBytes
          [{ opcode := SYNC_NEW_FILE_PATH, payload := ascii "a.txt" },
           { opcode := SYNC_NEW_FILE_PART, payload := [1, 2] },
           { opcode := SYNC_NEW_FILE_END, payload := ascii "b.txt" },
           { opcode := SYNC_CLOSE, payload := [] }])))
    (ascii "a.txt") (ascii "b.txt") [[1, 2]] [8, 0, 0, 0, 0]
    [(ascii "dst", Node.dir), (ascii "dst/a.txt", Node.file [9, 9, 9, 9, 9] none)]
    [(ascii "dst", Node.dir), (ascii "dst/a.txt", Node.file [] none)]
    (by decide) (by decide) (by decide) (by decide) rfl (by decide) (by decide) (by decide)
    (by decide)

/-- C8. Unknown opcode in the idle state: a frame whose opcode is not `INIT`,
`FILE_PATH` or `CLOSE` makes `HandleData` close the connection and exit. The
bytes behind the frame are still unread, nothing was written to the connection
and the file system and the rest of the session are as before. -/
theorem HandleData_unknown_opcode (w : World) (o : Byte) (q ys : List Byte)
    (ho0 : o ≠ SYNC_INIT) (ho1 : o ≠ SYNC_NEW_FILE_PATH) (ho8 : o ≠ SYNC_CLOSE)
    (hq : q.length < 2 ^ 32)
    (hopen : w.fh.socket.closed = false) (hfree : errorFree w.fh.socket.incoming)
    (hbytes : pendingBytes w.fh.socket.incoming
      = frameBytes { opcode := o, payload := q } ++ ys) :
    ∃ evs, errorFree evs ∧ pendingBytes evs = ys
      ∧ HandleData w = .exit
          { fh := { w.fh with
                    socket := { incoming := evs, written := w.fh.socket.written,
                                closed := true } },
            fs := w.fs } := by
  obtain ⟨evs, hrun, hf, hpend⟩ := readFrame_spec { opcode := o, payload := q }
    (by simpa using hq) ys w.fh.socket hopen hfree hbytes
  refine ⟨evs, hf, hpend, ?_⟩
  simp only [HandleData, hrun, ho0, ho1, ho8, if_false, World.withSocket, Conn.Close]

/-- C8, witness: a `FILE_END` frame (opcode 3) in the idle state, with a
`CLOSE` frame behind it. -/
theorem HandleData_unknown_opcode_witness :
    ∃ evs, errorFree evs ∧ pendingBytes evs = [8, 0, 0, 0, 0]
      ∧ HandleData (scenarioWorld [RecvEvent.seg 3 [1, 0, 0, 0, 120, 8, 0, 0, 0, 0]])
        = .exit
          { fh := { (scenarioWorld [RecvEvent.seg 3 [1, 0, 0, 0, 120, 8, 0, 0, 0, 0]]).fh with
                    socket := { incoming := evs, written := [], closed := true } },
            fs := (scenarioWorld []).fs } :=
  HandleData_unknown_opcode (scenarioWorld [RecvEvent.seg 3 [1, 0, 0, 0, 120, 8, 0, 0, 0, 0]])
    3 [120] [8, 0, 0, 0, 0] (by decide) (by decide) (by decide) (by decide) rfl (by decide)
    (by decide)

/-- C9. Protocol violation inside a transfer: in a Receive-File started by
`FILE_PATH p` (the destination file could be created), after any number of
`FILE_PART` frames, a frame whose opcode is neither `FILE_PART` nor `FILE_END`
makes `HandleData` exit. The file holds the payloads of the `FILE_PART` frames
and not the payload of that frame, the bytes behind the frame are still unread,
and the known paths are as before. -/
theorem HandleData_violation_in_transfer (w : World) (p : GoString)
    (parts : List (List Byte)) (bad : Frame) (ys : List Byte) (fs1 fs2 : FS)
    (hbad2 : bad.opcode ≠ SYNC_NEW_FILE_PART) (hbad3 : bad.opcode ≠ SYNC_NEW_FILE_END)
    (hp : p.length < 2 ^ 32) (hparts : ∀ x ∈ parts, x.length < 2 ^ 32)
    (hbadlen : bad.payload.length < 2 ^ 32)
    (hopen : w.fh.socket.closed = false) (hfree : errorFree w.fh.socket.incoming)
    (hbytes : pendingBytes w.fh.socket.incoming
      = frameBytes { opcode := SYNC_NEW_FILE_PATH, payload := p }
        ++ (framesBytes (partFrames parts) ++ (frameBytes bad ++ ys)))
    (hdirs : createDirectoriesRecursively w.fs
      (filepathJoin w.fh.pathToFolder (filepathDir p)) = some fs1)
    (hcreate : fs1.Create (filepathJoin w.fh.pathToFolder p) = some fs2) :
    ∃ w1, HandleData w = .exit w1
      ∧ w1.fs.content (filepathJoin w.fh.pathToFolder p) = some (wire parts)
      ∧ w1.fh.filePaths = w.fh.filePaths
      ∧ errorFree w1.fh.socket.incoming ∧ pendingBytes w1.fh.socket.incoming = ys := by
  obtain ⟨evs, fault, hf, hpend, hrun⟩ := HandleData_receive_spec w p parts bad ys fs1 fs2
    (by simpa using hp) (fun x hx => by simpa using hparts x hx) hbad2
    (by simpa using hbadlen) hopen hfree hbytes hdirs hcreate
  rw [if_neg (fun h => hbad3 h.1)] at hrun
  exact ⟨_, hrun, by simp only [FS.content, FS.lookup_set_self], rfl, hf, hpend⟩

/-- C9, witness: an `INIT` frame with payload `zz` after `FILE_PATH a.txt`
and one part; the file holds the part only. -/
theorem HandleData_violation_in_transfer_witness :
    ∃ w1, HandleData (receiverWorld (oneSegment (framesBytes
          [{ opcode := SYNC_NEW_FILE_PATH, payload := ascii "a.txt" },
           { opcode := SYNC_NEW_FILE_PART, payload := [1, 2] },
           { opcode := SYNC_INIT, payload := ascii "zz" },
           { opcode := SYNC_NEW_FILE_END, payload := ascii "a.txt" }]))) = .exit w1
      ∧ w1.fs.content (filepathJoin (ascii "dst") (ascii "a.txt")) = some (wire [[1, 2]])
      ∧ w1.fh.filePaths = []
      ∧ errorFree w1.fh.socket.incoming
      ∧ pendingBytes w1.fh.socket.incoming
          = frameBytes { opcode := SYNC_NEW_FILE_END, payload := ascii "a.txt" } :=
  HandleData_violation_in_transfer
    (receiverWorld (oneSegment (framesBytes
          [{ opcode := SYNC_NEW_FILE_PATH, payload := ascii "a.txt" },
           { opcode := SYNC_NEW_FILE_PART, payload := [1, 2] },
           { opcode := SYNC_INIT, payload := ascii "zz" },
           { opcode := SYNC_NEW_FILE_END, payload := ascii "a.txt" }])))
    (ascii "a.txt") [[1, 2]] { opcode := SYNC_INIT, payload := ascii "zz" }
    (frameBytes { opcode := SYNC_NEW_FILE_END, payload := ascii "a.txt" })
    [(ascii "dst", Node.dir), (ascii "dst/a.txt", Node.file [9, 9, 9, 9, 9] none)]
    [(ascii "dst", Node.dir), (ascii "dst/a.txt", Node.file [] none)]
    (by decide) (by decide) (by decide) (by decide) (by decide) rfl (by decide) (by decide)
    (by decide) (by decide)

/-- C10. The code on a completed Receive-File: in the scenario, whose known
paths `a.txt` and `sub/b.txt` are relative to the root `root`, receiving
`new.txt` appends one entry, and the entry is `root/new.txt`, the path joined
with the root folder, not `new.txt`. -/
theorem HandleData_receive_records_joined_path :
    (match HandleData (scenarioWorld (oneSegment (framesBytes
          [{ opcode := SYNC_NEW_FILE_PATH, payload := ascii "new.txt" },
           { opcode := SYNC_NEW_FILE_END, payload := ascii "new.txt" }]))) with
      | .ok w1 => some w1.fh.filePaths
      | _ => none)
      = some [ascii "a.txt", ascii "sub/b.txt", ascii "root/new.txt"] := by
  decide

/-! ## Reads and transport errors -/

/-- C13. `readFrame` is independent of read segmentation: the open stream
delivers, without error and in whatever segments, an opcode byte `o`, four
length bytes whose little-endian value is `len(payload)`, the payload and then
`rest`. `readFrame` returns the frame `(o, payload)` and leaves exactly `rest`
to be read, so that a frame at the start of `rest` is what the next `readFrame`
returns. -/
theorem readFrame_any_segmentation (o l0 l1 l2 l3 : Byte) (payload rest : List Byte)
    (c : Conn) (hlen : payload.length = l0 + l1 * 256 + l2 * 65536 + l3 * 16777216)
    (hopen : c.closed = false) (hfree : errorFree c.incoming)
    (hbytes : pendingBytes c.incoming = o :: l0 :: l1 :: l2 :: l3 :: (payload ++ rest)) :
    ∃ evs, readFrame c = .ok ({ opcode := o, payload := payload }, { c with incoming := evs })
      ∧ errorFree evs ∧ pendingBytes evs = rest
      ∧ ∀ (next : Frame) (ys : List Byte), next.payload.length < 2 ^ 32 →
          rest = frameBytes next ++ ys →
          ∃ evs2, readFrame { c with incoming := evs }
              = .ok (next, { c with incoming := evs2 })
            ∧ errorFree evs2 ∧ pendingBytes evs2 = ys := by
  have h5 : pendingBytes c.incoming = [o, l0, l1, l2, l3] ++ (payload ++ rest) := by
    rw [hbytes]; rfl
  obtain ⟨evs1, hrun1, hfree1, hbytes1⟩ := readBytes_spec _ _ c hopen hfree h5
  have hl : [o, l0, l1, l2, l3].length = 1 + 4 := rfl
  rw [hl] at hrun1
  obtain ⟨evs2, hrun2, hfree2, hbytes2⟩ :=
    readBytes_spec payload rest { c with incoming := evs1 } hopen hfree1 hbytes1
  have hu : uint32 [l0, l1, l2, l3] = payload.length := by
    rw [hlen]; simp [uint32]
  refine ⟨evs2, ?_, hfree2, hbytes2, ?_⟩
  · simp only [readFrame, hrun1, List.drop_succ_cons, List.drop_zero, hu, hrun2,
      List.getD_cons_zero]
  · intro next ys hnext hrest
    obtain ⟨evs3, hrun3, hfree3, hbytes3⟩ := readFrame_spec next (by simpa using hnext) ys
      { c with incoming := evs2 } hopen hfree2 (by rw [← hrest]; exact hbytes2)
    exact ⟨evs3, hrun3, hfree3, hbytes3⟩

/-- C13, witness: a frame with opcode 2 and payload `7, 8`, split over three
segments, with the first two bytes of the next frame in the last segment. -/
theorem readFrame_any_segmentation_witness :
    ∃ evs, readFrame { incoming := [RecvEvent.seg 2 [2, 0], RecvEvent.seg 0 [0, 7],
                                    RecvEvent.seg 8 [8, 0], RecvEvent.seg 0 [0, 0]],
                       written := [], closed := false }
        = .ok ({ opcode := 2, payload := [7, 8] },
               { incoming := evs, written := [], closed := false })
      ∧ errorFree evs ∧ pendingBytes evs = [8, 0, 0, 0, 0]
      ∧ ∀ (next : Frame) (ys : List Byte), next.payload.length < 2 ^ 32 →
          [8, 0, 0, 0, 0] = frameBytes next ++ ys →
          ∃ evs2, readFrame { incoming := evs, written := [], closed := false }
              = .ok (next, { incoming := evs2, written := [], closed := false })
            ∧ errorFree evs2 ∧ pendingBytes evs2 = ys :=
  readFrame_any_segmentation 2 2 0 0 0 [7, 8] [8, 0, 0, 0, 0]
    { incoming := [RecvEvent.seg 2 [2, 0], RecvEvent.seg 0 [0, 7],
                   RecvEvent.seg 8 [8, 0], RecvEvent.seg 0 [0, 0]],
      written := [], closed := false }
    (by decide) rfl (by decide) (by decide)

/-- When the stream ends or fails before `len` bytes have been delivered, the
loop of `readBytes` exits. -/
theorem readBytesLoop_truncated (len : Nat) (tail : List RecvEvent)
    (htail : tail = [] ∨ ∃ t, tail = RecvEvent.ioError :: t) (fuel : Nat) :
    ∀ (segs : List RecvEvent) (buf : List Byte) (c : Conn), c.closed = false →
      c.incoming = segs ++ tail → errorFree segs →
      buf.length + (pendingBytes segs).length < len → (pendingBytes segs).length < fuel →
      ∃ c1, readBytesLoop fuel len buf c = .exit c1 := by
  induction fuel with
  | zero => intro segs buf c _ _ _ _ h; omega
  | succ fuel ih =>
    intro segs buf c hopen hinc hfree hshort hfuel
    obtain ⟨incoming, written, closed⟩ := c
    simp only at hopen hinc
    subst hopen hinc
    have hne : ¬ buf.length = len := by omega
    have hk : len - buf.length ≠ 0 := by omega
    cases segs with
    | nil =>
      rcases htail with h | ⟨t, h⟩
      · subst h
        exact ⟨{ incoming := [], written := written, closed := false },
          by simp [readBytesLoop, hne, Conn.Read, hk]⟩
      · subst h
        exact ⟨{ incoming := t, written := written, closed := false },
          by simp [readBytesLoop, hne, Conn.Read, hk]⟩
    | cons e rest =>
      cases e with
      | ioError => simp [errorFree] at hfree
      | seg b bs =>
        simp only [errorFree] at hfree
        simp only [pendingBytes, List.length_cons, List.length_append] at hshort hfuel
        have hall : (b :: bs).take (len - buf.length) = b :: bs :=
          List.take_of_length_le (by simp only [List.length_cons]; omega)
        have hnone : (b :: bs).drop (len - buf.length) = [] :=
          List.drop_of_length_le (by simp only [List.length_cons]; omega)
        obtain ⟨c1, hrun⟩ := ih rest (buf ++ b :: bs)
          { incoming := rest ++ tail, written := written, closed := false } rfl rfl hfree
          (by simp only [List.length_append, List.length_cons]; omega) (by omega)
        refine ⟨c1, ?_⟩
        simp only [readBytesLoop, hne, if_false, Conn.Read, Bool.false_eq_true, hk,
          List.cons_append, hall, hnone, pushBack]
        exact hrun

/-- A stream that delivers `xs ++ ys` without error and then continues with
`tail`: the loop of `readBytes` fills the buffer with `xs` and leaves a stream
that delivers `ys` and then continues with `tail`. -/
theorem readBytesLoop_before_tail (tail : List RecvEvent) (fuel : Nat) :
    ∀ (segs : List RecvEvent) (xs ys buf : List Byte) (c : Conn), c.closed = false →
      c.incoming = segs ++ tail → errorFree segs →
      pendingBytes segs = xs ++ ys → xs.length ≤ fuel →
      ∃ segs1, readBytesLoop fuel (buf.length + xs.length) buf c
          = .ok (buf ++ xs, { c with incoming := segs1 ++ tail })
        ∧ errorFree segs1 ∧ pendingBytes segs1 = ys := by
  induction fuel with
  | zero =>
    intro segs xs ys buf c _ hinc hfree hbytes hlen
    have hxs : xs = [] := List.length_eq_zero.mp (Nat.le_zero.mp hlen)
    subst hxs
    exact ⟨segs, by simp [readBytesLoop, ← hinc], hfree, by simpa using hbytes⟩
  | succ fuel ih =>
    intro segs xs ys buf c hopen hinc hfree hbytes hlen
    cases xs with
    | nil => exact ⟨segs, by simp [readBytesLoop, ← hinc], hfree, by simpa using hbytes⟩
    | cons x xs =>
      obtain ⟨incoming, written, closed⟩ := c
      simp only at hopen hinc
      subst hopen hinc
      cases segs with
      | nil => simp [pendingBytes] at hbytes
      | cons e rest =>
        cases e with
        | ioError => simp [errorFree] at hfree
        | seg b bs =>
          simp only [errorFree] at hfree
          simp only [pendingBytes] at hbytes
          have hne : ¬ buf.length = buf.length + (x :: xs).length := by simp
          have hk : buf.length + (x :: xs).length - buf.length = xs.length + 1 := by simp
          simp only [readBytesLoop, hne, if_false, hk, Conn.Read, Bool.false_eq_true,
            Nat.succ_ne_zero, List.cons_append]
          have hb : b = x := by
            have := congrArg List.head? hbytes
            simpa using this
          subst hb
          have htail2 : bs ++ pendingBytes rest = xs ++ ys := by
            simpa using hbytes
          have hall : (b :: bs).take (xs.length + 1) = b :: bs.take xs.length := by simp
          have hdrop : (b :: bs).drop (xs.length + 1) = bs.drop xs.length := by simp
          rw [hall, hdrop]
          have htake : bs.take xs.length = xs.take bs.length := by
            have h1 := congrArg (List.take (min xs.length bs.length)) htail2
            rw [List.take_append_of_le_length (by simp), List.take_append_of_le_length (by simp)]
              at h1
            rcases Nat.le_total xs.length bs.length with h | h
            · rw [Nat.min_eq_left h] at h1
              rw [h1, List.take_of_length_le (le_refl _), List.take_of_length_le h]
            · rw [Nat.min_eq_right h] at h1
              rw [← h1, List.take_of_length_le (le_refl _), List.take_of_length_le h]
          have hrest : bs.drop xs.length ++ pendingBytes rest = xs.drop bs.length ++ ys := by
            have h1 := congrArg (List.drop (min xs.length bs.length)) htail2
            rcases Nat.le_total xs.length bs.length with h | h
            · rw [Nat.min_eq_left h, List.drop_append_of_le_length h,
                List.drop_append_of_le_length (le_refl _)] at h1
              simpa [List.drop_of_length_le h] using h1
            · rw [Nat.min_eq_right h, List.drop_append_of_le_length (le_refl _),
                List.drop_append_of_le_length h] at h1
              simpa [List.drop_of_length_le h] using h1
          have hpush : pushBack (bs.drop xs.length) (rest ++ tail)
              = pushBack (bs.drop xs.length) rest ++ tail := by
            cases bs.drop xs.length <;> rfl
          have hstep := ih (pushBack (bs.drop xs.length) rest) (xs.drop bs.length) ys
            (buf ++ b :: bs.take xs.length)
            { incoming := pushBack (bs.drop xs.length) rest ++ tail, written := written,
              closed := false }
            rfl rfl (errorFree_pushBack _ _ hfree)
            (by rw [pendingBytes_pushBack]; exact hrest)
            (by simp at hlen ⊢; omega)
          have hlen2 : (buf ++ b :: bs.take xs.length).length + (xs.drop bs.length).length
              = buf.length + (b :: xs).length := by
            simp; omega
          rw [hlen2] at hstep
          obtain ⟨segs1, hrun, hf, hp⟩ := hstep
          refine ⟨segs1, ?_, hf, hp⟩
          rw [hpush, hrun]
          have : buf ++ b :: bs.take xs.length ++ xs.drop bs.length = buf ++ b :: xs := by
            rw [htake]; simp
          simp [this]

/-- C17. Truncated stream is a fatal transport error: the open stream delivers
some bytes without error and then ends or reports an I/O error. When fewer
than the 5 header bytes were delivered, or fewer than the payload bytes that
the header announces, `readFrame` returns no frame: the process exits. -/
theorem readFrame_truncated (c : Conn) (segs tail : List RecvEvent)
    (hopen : c.closed = false) (hinc : c.incoming = segs ++ tail) (hfree : errorFree segs)
    (htail : tail = [] ∨ ∃ t, tail = RecvEvent.ioError :: t)
    (hshort : (pendingBytes segs).length < 5
      ∨ (pendingBytes segs).length < 5 + uint32 ((pendingBytes segs).drop 1)) :
    ∃ c1, readFrame c = .exit c1 := by
  by_cases h5 : (pendingBytes segs).length < 5
  · obtain ⟨c1, hrun⟩ := readBytesLoop_truncated 5 tail htail 5 segs [] c hopen hinc hfree
      (by simpa using h5) h5
    exact ⟨c1, by simp only [readFrame, readBytes, hrun]⟩
  · have hlen : (pendingBytes segs).length < 5 + uint32 ((pendingBytes segs).drop 1) := by
      rcases hshort with h | h
      · exact absurd h h5
      · exact h
    have hsplit : pendingBytes segs
        = (pendingBytes segs).take 5 ++ (pendingBytes segs).drop 5 :=
      (List.take_append_drop 5 _).symm
    have htl : ((pendingBytes segs).take 5).length = 5 := by
      rw [List.length_take]; omega
    obtain ⟨segs1, hrun1, hfree1, hbytes1⟩ := readBytesLoop_before_tail tail 5 segs
      ((pendingBytes segs).take 5) ((pendingBytes segs).drop 5) [] c hopen hinc hfree hsplit
      (by omega)
    rw [htl] at hrun1
    have hu : uint32 (((pendingBytes segs).take 5).drop 1) = uint32 ((pendingBytes segs).drop 1) := by
      rcases hx : pendingBytes segs with _ | ⟨a, _ | ⟨b, _ | ⟨c, _ | ⟨d, _ | ⟨e, t⟩⟩⟩⟩⟩ <;>
        rw [hx] at h5 <;> simp at h5 ⊢
      simp [uint32]
    obtain ⟨c2, hrun2⟩ := readBytesLoop_truncated (uint32 ((pendingBytes segs).drop 1)) tail
      htail (uint32 ((pendingBytes segs).drop 1)) segs1 []
      { c with incoming := segs1 ++ tail } hopen rfl hfree1
      (by rw [hbytes1, List.length_drop]; simp only [List.length_nil]; omega)
      (by rw [hbytes1, List.length_drop]; omega)
    refine ⟨c2, ?_⟩
    simp only [readFrame, readBytes, List.length_nil, Nat.zero_add, List.nil_append] at hrun1 hrun2 ⊢
    simp only [hrun1, hu, hrun2]

/-- C17, witness: the header announces three payload bytes, two arrive, and
the stream ends. -/
theorem readFrame_truncated_witness :
    ∃ c1, readFrame { incoming := [RecvEvent.seg 2 [3, 0, 0, 0, 7], RecvEvent.seg 8 []],
                      written := [], closed := false } = .exit c1 :=
  readFrame_truncated
    { incoming := [RecvEvent.seg 2 [3, 0, 0, 0, 7], RecvEvent.seg 8 []],
      written := [], closed := false }
    [RecvEvent.seg 2 [3, 0, 0, 0, 7], RecvEvent.seg 8 []] [] rfl rfl (by decide)
    (Or.inl rfl) (Or.inr (by decide))

/-- C16. Send-File open failure is skipped, not fatal: when the requested
file cannot be opened, `sendFile(r)` returns after one write, the `FILE_PATH`
frame with payload `r`, and the loop over the requested files goes on with the
remaining paths. -/
theorem sendFile_open_failure (w : World) (r : GoString)
    (hfail : w.fs.Open (filepathJoin w.fh.pathToFolder r) = none) :
    sendFile w r
        = .ok (w.withSocket (emit [{ opcode := SYNC_NEW_FILE_PATH, payload := r }] w.fh.socket))
      ∧ (emit [{ opcode := SYNC_NEW_FILE_PATH, payload := r }] w.fh.socket).written
        = w.fh.socket.written ++ [frameBytes { opcode := SYNC_NEW_FILE_PATH, payload := r }]
      ∧ ∀ rest, sendFiles (r :: rest) w
        = sendFiles rest
            (w.withSocket (emit [{ opcode := SYNC_NEW_FILE_PATH, payload := r }] w.fh.socket)) := by
  have h1 : sendFile w r
      = .ok (w.withSocket (emit [{ opcode := SYNC_NEW_FILE_PATH, payload := r }] w.fh.socket)) := by
    simp only [sendFile, hfail, emit_cons, emit_nil]
  refine ⟨h1, ?_, ?_⟩
  · rw [emit_written]; rfl
  · intro rest
    simp only [sendFiles, h1]

/-- C16, witness: in the scenario `missing.txt` does not exist. -/
theorem sendFile_open_failure_witness :
    sendFile (scenarioWorld []) (ascii "missing.txt")
        = .ok ((scenarioWorld []).withSocket
            (emit [{ opcode := SYNC_NEW_FILE_PATH, payload := ascii "missing.txt" }]
              (scenarioWorld []).fh.socket))
      ∧ (emit [{ opcode := SYNC_NEW_FILE_PATH, payload := ascii "missing.txt" }]
          (scenarioWorld []).fh.socket).written
        = (scenarioWorld []).fh.socket.written
          ++ [frameBytes { opcode := SYNC_NEW_FILE_PATH, payload := ascii "missing.txt" }]
      ∧ ∀ rest, sendFiles (ascii "missing.txt" :: rest) (scenarioWorld [])
        = sendFiles rest ((scenarioWorld []).withSocket
            (emit [{ opcode := SYNC_NEW_FILE_PATH, payload := ascii "missing.txt" }]
              (scenarioWorld []).fh.socket)) :=
  sendFile_open_failure (scenarioWorld []) (ascii "missing.txt") (by decide)

/-! ## Read faults in Send-File -/

/-- The read loop of `sendFile` on a file whose `k+1`-th read fails does what
it does on a file that holds only the first `k` chunks and reads without
fault. -/
theorem sendFileLoop_fault (chunkSize : Nat) (hc : 0 < chunkSize) (k : Nat) :
    ∀ (b : List Byte) (c : Conn) (fuel1 fuel2 : Nat), b.length + 1 ≤ fuel1 →
      (b.take (k * chunkSize)).length + 1 ≤ fuel2 →
      sendFileLoop fuel1 chunkSize { rest := b, fault := some k } c
        = sendFileLoop fuel2 chunkSize { rest := b.take (k * chunkSize), fault := none } c := by
  have hc0 : chunkSize ≠ 0 := by omega
  induction k with
  | zero =>
    intro b c fuel1 fuel2 h1 h2
    obtain ⟨f1, rfl⟩ : ∃ f, fuel1 = f + 1 := ⟨fuel1 - 1, by omega⟩
    obtain ⟨f2, rfl⟩ : ∃ f, fuel2 = f + 1 := ⟨fuel2 - 1, by omega⟩
    simp [sendFileLoop, ReadStream.Read, hc0]
  | succ k ih =>
    intro b c fuel1 fuel2 h1 h2
    obtain ⟨f1, rfl⟩ : ∃ f, fuel1 = f + 1 := ⟨fuel1 - 1, by omega⟩
    obtain ⟨f2, rfl⟩ : ∃ f, fuel2 = f + 1 := ⟨fuel2 - 1, by omega⟩
    cases b with
    | nil => simp [sendFileLoop, ReadStream.Read, hc0]
    | cons x xs =>
      have hne : (x :: xs).take ((k + 1) * chunkSize) ≠ [] := by
        have hpos : 0 < (k + 1) * chunkSize := Nat.mul_pos (by omega) hc
        obtain ⟨m, hm⟩ : ∃ m, (k + 1) * chunkSize = m + 1 := ⟨_, (Nat.succ_pred_eq_of_pos hpos).symm⟩
        rw [hm]; simp
      have hle : chunkSize ≤ (k + 1) * chunkSize := by
        rw [Nat.succ_mul]; omega
      have htake : ((x :: xs).take ((k + 1) * chunkSize)).take chunkSize
          = (x :: xs).take chunkSize := by
        rw [List.take_take, Nat.min_eq_left hle]
      have hdrop : ((x :: xs).take ((k + 1) * chunkSize)).drop chunkSize
          = ((x :: xs).drop chunkSize).take (k * chunkSize) := by
        rw [List.drop_take]
        congr 1
        rw [Nat.succ_mul]; omega
      have hpos : ((x :: xs).take chunkSize).length > 0 := by
        simp only [List.length_take, List.length_cons]; omega
      have hlen : ((x :: xs).drop chunkSize).length + 1 ≤ f1
          ∧ (((x :: xs).drop chunkSize).take (k * chunkSize)).length + 1 ≤ f2 := by
        rw [Nat.succ_mul] at h2
        simp only [List.length_take, List.length_drop, List.length_cons] at h1 h2 ⊢
        omega
      simp only [sendFileLoop, ReadStream.Read_of_ready _ _ _ hc0 (by simp : some (k + 1) ≠ some 0),
        ReadStream.Read_of_ready _ _ _ hc0 (by simp : (none : Option Nat) ≠ some 0),
        List.cons_ne_nil, hne, if_false, htake, hdrop, hpos, if_true, Option.map_some',
        Option.map_none', Nat.pred_succ]
      exact ih _ _ f1 f2 hlen.1 hlen.2

/-- C20. A read error inside `sendFile`: the requested file opens with
content `b`, and its `k+1`-th read fails with an error that is not
end-of-file. With a positive chunk size `sendFile` still returns, and what it
has sent is `FILE_PATH r`, `FILE_PART` frames whose payloads concatenate to the
first `k` chunks of `b` (its first `k * chunkSize` bytes), and `FILE_END r`:
the same as in a world in which the file holds only these chunks and reads
without fault. -/
theorem sendFile_read_fault (w : World) (r b : List Byte) (k : Nat)
    (hc : 0 < w.fh.chunkSize)
    (hopen : w.fs.Open (filepathJoin w.fh.pathToFolder r) = some { rest := b, fault := some k }) :
    ∃ parts : List (List Byte), wire parts = b.take (k * w.fh.chunkSize)
      ∧ (∀ q ∈ parts, 1 ≤ q.length ∧ q.length ≤ w.fh.chunkSize)
      ∧ sendFile w r = .ok (w.withSocket (emit
          ([{ opcode := SYNC_NEW_FILE_PATH, payload := r }] ++ partFrames parts
            ++ [{ opcode := SYNC_NEW_FILE_END, payload := r }]) w.fh.socket))
      ∧ ∀ w2 : World, w2.fh = w.fh →
          w2.fs.Open (filepathJoin w.fh.pathToFolder r)
            = some { rest := b.take (k * w.fh.chunkSize), fault := none } →
          sendFile w2 r = .ok (w2.withSocket (emit
            ([{ opcode := SYNC_NEW_FILE_PATH, payload := r }] ++ partFrames parts
              ++ [{ opcode := SYNC_NEW_FILE_END, payload := r }]) w.fh.socket)) := by
  obtain ⟨parts, hcat, hlen, _, hrun⟩ :=
    sendFileLoop_spec w.fh.chunkSize hc ((b.take (k * w.fh.chunkSize)).length + 1)
      (b.take (k * w.fh.chunkSize)) (sendFrame r SYNC_NEW_FILE_PATH w.fh.socket) (le_refl _)
  have hfault := sendFileLoop_fault w.fh.chunkSize hc k b
    (sendFrame r SYNC_NEW_FILE_PATH w.fh.socket) (b.length + 1)
    ((b.take (k * w.fh.chunkSize)).length + 1) (le_refl _) (le_refl _)
  refine ⟨parts, hcat, hlen, ?_, ?_⟩
  · simp only [sendFile, hopen, hfault, hrun, emit_append, emit_cons, emit_nil, partFrames]
  · intro w2 hfh hopen2
    have hroot : w2.fh.pathToFolder = w.fh.pathToFolder := by rw [hfh]
    have hchunk : w2.fh.chunkSize = w.fh.chunkSize := by rw [hfh]
    have hsock : w2.fh.socket = w.fh.socket := by rw [hfh]
    simp only [sendFile, hroot, hchunk, hsock, hopen2, hrun, emit_append, emit_cons, emit_nil,
      partFrames]

/-- C20, witness: a five-byte file read in chunks of two whose third read
fails; the two chunks that were read are sent, and `FILE_END`. -/
theorem sendFile_read_fault_witness :
    ∃ parts : List (List Byte), wire parts = [1, 2, 3, 4]
      ∧ sendFile { fh := { filePaths := [], chunkSize := 2, pathToFolder := ascii "root",
                           socket := freshConn },
                   fs := [(ascii "root", Node.dir),
                          (ascii "root/a.txt", Node.file [1, 2, 3, 4, 5] (some 2))] }
          (ascii "a.txt")
        = .ok (World.withSocket
            { fh := { filePaths := [], chunkSize := 2, pathToFolder := ascii "root",
                      socket := freshConn },
              fs := [(ascii "root", Node.dir),
                     (ascii "root/a.txt", Node.file [1, 2, 3, 4, 5] (some 2))] }
            (emit ([{ opcode := SYNC_NEW_FILE_PATH, payload := ascii "a.txt" }]
              ++ partFrames parts
              ++ [{ opcode := SYNC_NEW_FILE_END, payload := ascii "a.txt" }]) freshConn)) := by
  obtain ⟨parts, hcat, _, hrun, _⟩ := sendFile_read_fault
    { fh := { filePaths := [], chunkSize := 2, pathToFolder := ascii "root",
              socket := freshConn },
      fs := [(ascii "root", Node.dir),
             (ascii "root/a.txt", Node.file [1, 2, 3, 4, 5] (some 2))] }
    (ascii "a.txt") [1, 2, 3, 4, 5] 2 (by decide) (by decide)
  exact ⟨parts, hcat, hrun⟩

/-! ## The handshake -/

/-- C12. Handshake bytes: `InitSocket` enters the protocol loop on a
connection from which nothing has been read and to which exactly two buffers
have been written: the raw bytes of the API key, and one `INIT` frame (opcode
0, the payload length in four little-endian bytes, the payload) whose payload
is the known paths joined by newlines, empty for an empty list. When the peer
sends nothing, the process exits at the first read with exactly these writes. -/
theorem InitSocket_handshake (w : World) (apiKey : GoString)
    (hlen : (stringsJoin w.fh.filePaths 10).length < 2 ^ 32) :
    ∃ (c : Conn) (b0 b1 b2 b3 : Nat), b0 < 256 ∧ b1 < 256 ∧ b2 < 256 ∧ b3 < 256
      ∧ (stringsJoin w.fh.filePaths 10).length = b0 + 256 * b1 + 256 ^ 2 * b2 + 256 ^ 3 * b3
      ∧ c.written = w.fh.socket.written
          ++ [apiKey, [SYNC_INIT] ++ [b0, b1, b2, b3] ++ stringsJoin w.fh.filePaths 10]
      ∧ c.incoming = w.fh.socket.incoming ∧ c.closed = w.fh.socket.closed
      ∧ InitSocket w apiKey
          = handleLoop ((pendingBytes w.fh.socket.incoming).length + 1) (w.withSocket c)
      ∧ (w.fh.filePaths = [] → stringsJoin w.fh.filePaths 10 = [])
      ∧ (w.fh.socket.incoming = [] → w.fh.socket.closed = false →
          InitSocket w apiKey = .exit (w.withSocket c)) := by
  have hlen1 : (stringsJoin w.fh.filePaths 10).length < 4294967296 := by simpa using hlen
  refine ⟨sendFrame (stringsJoin w.fh.filePaths 10) SYNC_INIT (w.fh.socket.Write apiKey),
    (stringsJoin w.fh.filePaths 10).length % 256,
    (stringsJoin w.fh.filePaths 10).length / 256 % 256,
    (stringsJoin w.fh.filePaths 10).length / 65536 % 256,
    (stringsJoin w.fh.filePaths 10).length / 16777216 % 256,
    by omega, by omega, by omega, by omega, by omega, ?_, rfl, rfl, rfl, ?_, ?_⟩
  · rw [sendFrame_written, Nat.mod_eq_of_lt hlen1]
    simp [putUint32, Conn.Write]
  · intro h; rw [h]; rfl
  · intro hinc hopen
    simp only [InitSocket, sendFrame, Conn.Write, hinc, pendingBytes, List.length_nil,
      handleLoop, HandleData, readFrame, readBytes, readBytesLoop, World.withSocket,
      Conn.Read, hopen]
    simp

/-- C12, witness: the scenario, with key `KEY`, and a peer that sends
nothing: the key and an `INIT` frame with the 15 bytes `a.txt\nsub/b.txt` are
written before the process exits at the first read. -/
theorem InitSocket_handshake_witness :
    InitSocket (scenarioWorld []) (ascii "KEY")
      = .exit ((scenarioWorld []).withSocket
          { incoming := [],
            written := [ascii "KEY", [0, 15, 0, 0, 0] ++ ascii "a.txt\nsub/b.txt"],
            closed := false }) := by
  obtain ⟨c, b0, b1, b2, b3, h0, h1, h2, h3, hsum, hw, hinc, hcl, _, _, hexit⟩ :=
    InitSocket_handshake (scenarioWorld []) (ascii "KEY") (by decide)
  rw [hexit rfl rfl]
  have hl : (stringsJoin (scenarioWorld []).fh.filePaths 10).length = 15 := by decide
  rw [hl] at hsum
  have e0 : b0 = 15 := by omega
  have e1 : b1 = 0 := by omega
  have e2 : b2 = 0 := by omega
  have e3 : b3 = 0 := by omega
  subst e0 e1 e2 e3
  obtain ⟨incoming, written, closed⟩ := c
  simp only at hw hinc hcl
  subst hw hinc hcl
  decide

/-! ## What `HandleData` leaves unchanged -/

theorem SameSession.refl (w : World) : SameSession w w := ⟨rfl, rfl, rfl⟩

theorem SameSession.trans {w w1 w2 : World} (h1 : SameSession w w1) (h2 : SameSession w1 w2) :
    SameSession w w2 :=
  ⟨h2.1.trans h1.1, h2.2.1.trans h1.2.1, h2.2.2.trans h1.2.2⟩

theorem sendFile_sameSession (w w1 : World) (r : GoString) (h : sendFile w r = .ok w1) :
    SameSession w w1 := by
  unfold sendFile at h
  simp only at h
  split at h
  · cases h; exact ⟨rfl, rfl, rfl⟩
  · split at h
    · cases h
    · cases h
    · cases h; exact ⟨rfl, rfl, rfl⟩

theorem sendFiles_sameSession (rs : List GoString) :
    ∀ (w w1 : World), sendFiles rs w = .ok w1 → SameSession w w1 := by
  induction rs with
  | nil => intro w w1 h; cases h; exact SameSession.refl _
  | cons r rs ih =>
    intro w w1 h
    simp only [sendFiles] at h
    cases hs : sendFile w r with
    | hang => rw [hs] at h; cases h
    | exit s => rw [hs] at h; cases h
    | ok w2 =>
      rw [hs] at h
      exact (sendFile_sameSession w w2 r hs).trans (ih w2 w1 h)

theorem receiveLoop_sameSession (filePath : GoString) (fuel : Nat) :
    ∀ (frame last : Frame) (w w1 : World),
      receiveLoop fuel filePath frame w = .ok (last, w1) → SameSession w w1 := by
  induction fuel with
  | zero => intro frame last w w1 h; cases h
  | succ fuel ih =>
    intro frame last w w1 h
    simp only [receiveLoop] at h
    split at h
    · cases h; exact SameSession.refl _
    · split at h
      · cases h
      · split at h
        · cases h
        · split at h
          · cases h
          · cases h
          · have hs := ih _ _ _ _ h
            exact ⟨hs.1, hs.2.1, hs.2.2⟩

theorem receiveFrom_sameSession (filePath : GoString) (fuel : Nat) (last : Frame)
    (w w1 : World) (h : receiveFrom fuel filePath w = .ok (last, w1)) : SameSession w w1 := by
  unfold receiveFrom at h
  split at h
  · cases h
  · cases h
  · have hs := receiveLoop_sameSession _ _ _ _ _ _ h
    exact ⟨hs.1, hs.2.1, hs.2.2⟩

/-- C18. Known paths never shrink: whenever `HandleData` returns, the known
paths before the call are a prefix of the known paths after it, and the root
path and the chunk size are the same; when the frame it read is `INIT` or
`CLOSE`, the known paths are the same as well. -/
theorem HandleData_known_paths (w w1 : World) (h : HandleData w = .ok w1) :
    w.fh.filePaths <+: w1.fh.filePaths
      ∧ w1.fh.pathToFolder = w.fh.pathToFolder ∧ w1.fh.chunkSize = w.fh.chunkSize
      ∧ ∀ (frame : Frame) (c : Conn), readFrame w.fh.socket = .ok (frame, c) →
          frame.opcode = SYNC_INIT ∨ frame.opcode = SYNC_CLOSE →
          w1.fh.filePaths = w.fh.filePaths := by
  unfold HandleData at h
  cases hr : readFrame w.fh.socket with
  | hang => rw [hr] at h; cases h
  | exit c => rw [hr] at h; cases h
  | ok res =>
    obtain ⟨frame, c⟩ := res
    rw [hr] at h
    simp only at h
    by_cases h0 : frame.opcode = SYNC_INIT
    · -- INIT
      have hsame : SameSession w w1 := by
        simp only [h0, if_true] at h
        split at h
        · cases h; exact ⟨rfl, rfl, rfl⟩
        · have hs := sendFiles_sameSession _ _ _ h
          exact ⟨hs.1, hs.2.1, hs.2.2⟩
      exact ⟨by rw [hsame.1], hsame.2.2, hsame.2.1, fun _ _ _ _ => hsame.1⟩
    · simp only [h0, if_false] at h
      by_cases h1 : frame.opcode = SYNC_NEW_FILE_PATH
      · -- FILE_PATH
        simp only [h1, if_true] at h
        have hno : ¬ (frame.opcode = SYNC_INIT ∨ frame.opcode = SYNC_CLOSE) := by
          intro hop
          rcases hop with hop | hop
          · exact absurd hop h0
          · rw [h1] at hop; exact absurd hop (by decide)
        split at h
        · cases h
        · split at h
          · cases h
          · split at h
            · cases h
            · cases h
            · next last w2 hrecv =>
              have hsame := receiveFrom_sameSession _ _ _ _ _ hrecv
              split at h
              · cases h
              · cases h
                refine ⟨?_, hsame.2.2, hsame.2.1,
                  fun f c2 hf hop => by cases hf; exact absurd hop hno⟩
                show w.fh.filePaths <+: w2.fh.filePaths ++ _
                rw [hsame.1]
                exact List.prefix_append _ _
      · simp only [h1, if_false] at h
        split at h
        · cases h
          exact ⟨List.prefix_refl _, rfl, rfl, fun _ _ _ _ => rfl⟩
        · cases h

/-- C18, witness: after receiving `a.txt` the known paths of the receiver,
empty before, hold one entry. -/
theorem HandleData_known_paths_witness :
    ([] : List GoString) <+: [ascii "dst/a.txt"]
      ∧ ascii "dst" = ascii "dst" ∧ (4 : Nat) = 4
      ∧ ∀ (frame : Frame) (c : Conn),
          readFrame (receiverWorld (oneSegment (framesBytes
            [{ opcode := SYNC_NEW_FILE_PATH, payload := ascii "a.txt" },
             { opcode := SYNC_NEW_FILE_END, payload := ascii "a.txt" }]))).fh.socket
            = .ok (frame, c) →
          frame.opcode = SYNC_INIT ∨ frame.opcode = SYNC_CLOSE →
          [ascii "dst/a.txt"] = ([] : List GoString) :=
  HandleData_known_paths
    (receiverWorld (oneSegment (framesBytes
      [{ opcode := SYNC_NEW_FILE_PATH, payload := ascii "a.txt" },
       { opcode := SYNC_NEW_FILE_END, payload := ascii "a.txt" }])))
    { fh := { filePaths := [ascii "dst/a.txt"], chunkSize := 4, pathToFolder := ascii "dst",
              socket := { incoming := [], written := [], closed := false } },
      fs := [(ascii "dst", Node.dir), (ascii "dst/a.txt", Node.file [] none)] }
    (by decide)

/-! ## Directory creation -/

theorem FS.lookup_set_ne (fs : FS) (p q : GoString) (n : Node) (h : q ≠ p) :
    (fs.set p n).lookup q = fs.lookup q := by
  induction fs with
  | nil => simp [FS.set, FS.lookup, Ne.symm h]
  | cons e fs ih =>
    obtain ⟨k, m⟩ := e
    by_cases hk : k = p
    · subst hk
      simp [FS.set, FS.lookup, Ne.symm h]
    · by_cases hq : k = q
      · subst hq
        simp [FS.set, FS.lookup, h]
      · simp [FS.set, FS.lookup, hk, hq, ih]

/-- After a name that did not exist has been added, `os.Stat` finds the new
node there and what it found before everywhere else. -/
theorem FS.stat_set_of_absent (fs : FS) (p q : GoString) (n : Node) (h : fs.stat p = none) :
    (fs.set p n).stat q = if q = p then some n else fs.stat q := by
  have hp : ¬ (p = [46] ∨ p = [47]) := by
    intro hp
    simp [FS.stat, hp] at h
  by_cases hq : q = p
  · subst hq
    simp [FS.stat, hp, FS.lookup_set_self]
  · simp only [FS.stat, hq, if_false, FS.lookup_set_ne _ _ _ _ hq]

theorem FS.Mkdir_cases (fs : FS) (p : GoString) :
    (fs.Mkdir p = fs.set p Node.dir ∧ fs.stat p = none ∧ fs.stat (filepathDir p) = some Node.dir)
      ∨ (fs.Mkdir p = fs ∧ (fs.stat p ≠ none ∨ fs.stat (filepathDir p) ≠ some Node.dir)) := by
  unfold FS.Mkdir
  cases h1 : fs.stat p with
  | some n => right; exact ⟨rfl, Or.inl (by simp)⟩
  | none =>
    cases h2 : fs.stat (filepathDir p) with
    | none => right; exact ⟨rfl, Or.inr (by simp)⟩
    | some m =>
      cases m with
      | dir => left; exact ⟨rfl, rfl, rfl⟩
      | file c f => right; exact ⟨rfl, Or.inr (by simp)⟩

/-- `os.Mkdir` leaves what exists as it is. -/
theorem FS.Mkdir_stat_mono (fs : FS) (p q : GoString) (n : Node) (h : fs.stat q = some n) :
    (fs.Mkdir p).stat q = some n := by
  rcases FS.Mkdir_cases fs p with ⟨he, hp, _⟩ | ⟨he, _⟩
  · rw [he, FS.stat_set_of_absent _ _ _ _ hp]
    have hq : q ≠ p := by
      intro e; rw [e, hp] at h; cases h
    simp [hq, h]
  · rw [he]; exact h

theorem FS.Mkdir_idem (fs : FS) (p : GoString) : (fs.Mkdir p).Mkdir p = fs.Mkdir p := by
  rcases FS.Mkdir_cases fs p with ⟨he, hp, _⟩ | ⟨he, hor⟩
  · have hs : (fs.Mkdir p).stat p = some Node.dir := by
      rw [he, FS.stat_set_of_absent _ _ _ _ hp]; simp
    rcases FS.Mkdir_cases (fs.Mkdir p) p with ⟨_, hp2, _⟩ | ⟨he2, _⟩
    · rw [hs] at hp2; cases hp2
    · exact he2
  · rw [he]; exact he

theorem FS.Mkdir_of_parent_absent (fs : FS) (p : GoString)
    (h : fs.stat (filepathDir p) = none) : fs.Mkdir p = fs := by
  rcases FS.Mkdir_cases fs p with ⟨_, _, hpar⟩ | ⟨he, _⟩
  · rw [h] at hpar; cases hpar
  · exact he

/-- The second step of `createDirectoriesRecursively`, made twice, is the
same as made once. -/
theorem mkdirIfAbsent_idem (fs : FS) (p : GoString) :
    (if (if fs.stat p = none then fs.Mkdir p else fs).stat p = none
      then some ((if fs.stat p = none then fs.Mkdir p else fs).Mkdir p)
      else some (if fs.stat p = none then fs.Mkdir p else fs))
      = some (if fs.stat p = none then fs.Mkdir p else fs) := by
  by_cases h : fs.stat p = none
  · simp only [h, if_true]
    split
    · rw [FS.Mkdir_idem fs p]
    · rfl
  · simp only [h, if_false]

theorem createDirectoriesLoop_idem (fuel : Nat) :
    ∀ (fuel2 : Nat) (fs fs1 : FS) (p : GoString),
      createDirectoriesLoop fuel fs p = some fs1 → p.count 47 + 1 ≤ fuel2 →
      createDirectoriesLoop fuel2 fs1 p = some fs1 := by
  induction fuel with
  | zero => intro fuel2 fs fs1 p h; simp [createDirectoriesLoop] at h
  | succ fuel ih =>
    intro fuel2 fs fs1 p h hfuel
    obtain ⟨f2, rfl⟩ : ∃ f, fuel2 = f + 1 := ⟨fuel2 - 1, by omega⟩
    simp only [createDirectoriesLoop] at h ⊢
    by_cases hpar : fs.stat (filepathDir p) = none
    · -- the first call went up to the parent
      simp only [hpar, if_true] at h
      cases hrec : createDirectoriesLoop fuel fs (filepathDir p) with
      | none => rw [hrec] at h; simp at h
      | some fsA =>
        rw [hrec] at h
        simp only at h
        have hfs1 : fs1 = if fsA.stat p = none then fsA.Mkdir p else fsA := by
          split at h <;> (simp only [Option.some.injEq] at h; subst h; simp [*])
        by_cases hparA : fsA.stat (filepathDir p) = none
        · -- the parent could not be made: nothing below it can be made
          have hsame : fs1 = fsA := by
            rw [hfs1]; split
            · exact FS.Mkdir_of_parent_absent _ _ hparA
            · rfl
          have hlt : (filepathDir p).count 47 < p.count 47 := by
            rcases filepathDir_measure p with e | e | e
            · rw [e] at hparA; simp [FS.stat] at hparA
            · rw [e] at hparA; simp [FS.stat] at hparA
            · exact e
          have hrec2 := ih f2 fs fsA (filepathDir p) hrec (by omega)
          rw [hsame]
          simp only [hparA, if_true, hrec2]
          split
          · rw [FS.Mkdir_of_parent_absent _ _ hparA]
          · rfl
        · -- the parent exists now
          have hpar1 : ¬ fs1.stat (filepathDir p) = none := by
            obtain ⟨m, hm⟩ := Option.ne_none_iff_exists'.mp hparA
            rw [hfs1]; split
            · rw [FS.Mkdir_stat_mono _ _ _ _ hm]; simp
            · rw [hm]; simp
          simp only [hpar1, if_false]
          rw [hfs1]
          exact mkdirIfAbsent_idem fsA p
    · -- the parent existed
      simp only [hpar, if_false] at h
      have hfs1 : fs1 = if fs.stat p = none then fs.Mkdir p else fs := by
        split at h <;> (simp only [Option.some.injEq] at h; subst h; simp [*])
      have hpar1 : ¬ fs1.stat (filepathDir p) = none := by
        obtain ⟨m, hm⟩ := Option.ne_none_iff_exists'.mp hpar
        rw [hfs1]; split
        · rw [FS.Mkdir_stat_mono _ _ _ _ hm]; simp
        · rw [hm]; simp
      simp only [hpar1, if_false]
      rw [hfs1]
      exact mkdirIfAbsent_idem fs p

/-- C14. Directory materialization is idempotent: for every file system and
every path, `createDirectoriesRecursively` returns, and called again on its
result it returns that result unchanged. On a path that exists, in a file
system where what exists has an existing parent, it returns the file system
unchanged. -/
theorem createDirectoriesRecursively_idempotent (fs : FS) (d : GoString) :
    (∃ fs1, createDirectoriesRecursively fs d = some fs1
        ∧ createDirectoriesRecursively fs1 d = some fs1)
      ∧ (fs.parentsExist → fs.stat d ≠ none → createDirectoriesRecursively fs d = some fs) := by
  constructor
  · obtain ⟨fs1, h1⟩ := createDirectoriesRecursively_returns fs d
    exact ⟨fs1, h1, createDirectoriesLoop_idem _ _ fs fs1 d h1
      (by have := List.count_le_length 47 d; omega)⟩
  · intro hwf hd
    have hpar : fs.stat (filepathDir d) ≠ none := by
      by_cases himp : d = [46] ∨ d = [47]
      · have e1 : filepathDir [46] = [46] := by decide
        have e2 : filepathDir [47] = [47] := by decide
        rcases himp with e | e <;> subst e
        · rw [e1]; simp [FS.stat]
        · rw [e2]; simp [FS.stat]
      · have hl : fs.lookup d ≠ none := by simpa [FS.stat, himp] using hd
        obtain ⟨n, hn⟩ := Option.ne_none_iff_exists'.mp hl
        exact hwf d n hn
    simp only [createDirectoriesRecursively, createDirectoriesLoop, hpar, hd, if_false]

/-- C14, witness: in the scenario, `root/x/y` is made by the first call and
left alone by the second, and `root/sub`, which exists, is left alone. -/
theorem createDirectoriesRecursively_idempotent_witness :
    createDirectoriesRecursively (scenarioWorld []).fs (ascii "root/x/y")
        = some ((scenarioWorld []).fs ++ [(ascii "root/x", Node.dir), (ascii "root/x/y", Node.dir)])
      ∧ createDirectoriesRecursively
          ((scenarioWorld []).fs ++ [(ascii "root/x", Node.dir), (ascii "root/x/y", Node.dir)])
          (ascii "root/x/y")
        = some ((scenarioWorld []).fs ++ [(ascii "root/x", Node.dir), (ascii "root/x/y", Node.dir)])
      ∧ createDirectoriesRecursively (scenarioWorld []).fs (ascii "root/sub")
        = some (scenarioWorld []).fs := by
  obtain ⟨⟨fs1, h1, h2⟩, h3⟩ :=
    createDirectoriesRecursively_idempotent (scenarioWorld []).fs (ascii "root/x/y")
  have e : createDirectoriesRecursively (scenarioWorld []).fs (ascii "root/x/y")
      = some ((scenarioWorld []).fs ++ [(ascii "root/x", Node.dir), (ascii "root/x/y", Node.dir)]) := by
    decide
  rw [e] at h1
  cases h1
  refine ⟨e, h2, ?_⟩
  refine (createDirectoriesRecursively_idempotent (scenarioWorld []).fs (ascii "root/sub")).2
    ?_ (by decide)
  intro k n hk
  have hmem : k = ascii "root" ∨ k = ascii "root/a.txt" ∨ k = ascii "root/sub"
      ∨ k = ascii "root/sub/b.txt" := by
    by_contra hne
    simp only [not_or] at hne
    simp [scenarioWorld, FS.lookup, Ne.symm hne.1, Ne.symm hne.2.1, Ne.symm hne.2.2.1,
      Ne.symm hne.2.2.2] at hk
  rcases hmem with e | e | e | e <;> subst e <;> decide

/-! ## Cleaned paths -/

theorem isEntryName_iff (n : GoString) :
    isEntryName n = true ↔ n ≠ [] ∧ 47 ∉ n ∧ n ≠ [46] ∧ n ≠ [46, 46] := by
  simp [isEntryName]

theorem consHead_append (b : Byte) (l m : List GoString) (h : l ≠ []) :
    consHead b (l ++ m) = consHead b l ++ m := by
  cases l with
  | nil => exact absurd rfl h
  | cons x xs => rfl

theorem stringsSplit_append (x t : GoString) (sep : Byte) :
    stringsSplit (x ++ sep :: t) sep = stringsSplit x sep ++ stringsSplit t sep := by
  induction x with
  | nil => simp [stringsSplit]
  | cons b x ih =>
    have e : (b :: x) ++ sep :: t = b :: (x ++ sep :: t) := rfl
    rw [e]
    by_cases hb : b = sep
    · simp [stringsSplit, hb, ih]
    · simp only [stringsSplit, hb, if_false, ih]
      exact consHead_append _ _ _ (stringsSplit_ne_nil x sep)

theorem stringsJoin_append (xs ys : List GoString) (sep : Byte) (hx : xs ≠ []) (hy : ys ≠ []) :
    stringsJoin (xs ++ ys) sep = stringsJoin xs sep ++ sep :: stringsJoin ys sep := by
  induction xs with
  | nil => exact absurd rfl hx
  | cons x rest ih =>
    cases rest with
    | nil =>
      cases ys with
      | nil => exact absurd rfl hy
      | cons y ys => simp [stringsJoin]
    | cons x2 rest =>
      have h1 := ih (by simp)
      show x ++ sep :: stringsJoin ((x2 :: rest) ++ ys) sep = _
      rw [h1]
      simp [stringsJoin]

theorem stringsJoin_eq_nil (l : List GoString) (sep : Byte) (h : ∀ a ∈ l, a ≠ [])
    (hj : stringsJoin l sep = []) : l = [] := by
  cases l with
  | nil => rfl
  | cons x rest =>
    cases rest with
    | nil => exact absurd (by simpa [stringsJoin] using hj) (h x (by simp))
    | cons y rest => simp [stringsJoin] at hj

theorem stringsJoin_head (l : List GoString) (h : l ≠ []) (hl : ∀ a ∈ l, a ≠ [] ∧ 47 ∉ a) :
    (stringsJoin l 47).head? ≠ some 47 := by
  cases l with
  | nil => exact absurd rfl h
  | cons x rest =>
    obtain ⟨hx1, hx2⟩ := hl x (by simp)
    cases x with
    | nil => exact absurd rfl hx1
    | cons b x =>
      have hb : b ≠ 47 := fun e => hx2 (by simp [e])
      cases rest <;> simp [stringsJoin, hb]

theorem cleanStep_entryName (rooted : Bool) (out : List GoString) (n : GoString)
    (h : isEntryName n = true) : cleanStep rooted out n = n :: out := by
  obtain ⟨h1, _, h3, h4⟩ := (isEntryName_iff n).mp h
  simp [cleanStep, h1, h3, h4]

theorem foldl_cleanStep_entryNames (rooted : Bool) (names : List GoString)
    (h : allEntryNames names) :
    ∀ out : List GoString, names.foldl (cleanStep rooted) out = names.reverse ++ out := by
  induction names with
  | nil => intro out; rfl
  | cons n names ih =>
    intro out
    rw [List.foldl_cons, cleanStep_entryName rooted out n (h n (by simp)),
      ih (fun m hm => h m (List.mem_cons_of_mem _ hm))]
    simp

theorem allEntryNames_slashFree (names : List GoString) (h : allEntryNames names) :
    ∀ a ∈ names, a ≠ [] ∧ 47 ∉ a := by
  intro a ha
  obtain ⟨h1, h2, _, _⟩ := (isEntryName_iff a).mp (h a ha)
  exact ⟨h1, h2⟩

theorem cleanNames_append (rooted : Bool) (A B : List GoString) (hA : cleanNames rooted A)
    (hB : allEntryNames B) : cleanNames rooted (A ++ B) := by
  refine ⟨?_, ?_⟩
  · intro a ha
    rcases List.mem_append.mp ha with h | h
    · exact hA.1 a h
    · exact allEntryNames_slashFree B hB a h
  · rw [List.foldl_append, hA.2, foldl_cleanStep_entryNames rooted B hB]
    simp

theorem finishClean_reverse (rooted : Bool) (L : List GoString) (h : ∀ a ∈ L, a ≠ []) :
    finishClean rooted L.reverse = renderPath rooted L := by
  by_cases hL : L = []
  · subst hL; cases rooted <;> rfl
  · have hj : stringsJoin L 47 ≠ [] := fun e => hL (stringsJoin_eq_nil L 47 h e)
    cases rooted <;> simp [finishClean, renderPath, hL, hj]

theorem filepathClean_eq (path : GoString) (h : path ≠ []) :
    filepathClean path
      = finishClean (decide (path.head? = some 47))
          ((stringsSplit path 47).foldl (cleanStep (decide (path.head? = some 47))) []) := by
  simp only [filepathClean, h, if_false, finishClean]

theorem renderPath_ne_nil (rooted : Bool) (A : List GoString) (hA : cleanNames rooted A) :
    renderPath rooted A ≠ [] := by
  by_cases hL : A = []
  · subst hL; cases rooted <;> simp [renderPath]
  · have hj : stringsJoin A 47 ≠ [] :=
      fun e => hL (stringsJoin_eq_nil A 47 (fun a ha => (hA.1 a ha).1) e)
    cases rooted <;> simp [renderPath, hL, hj]

theorem renderPath_rooted (rooted : Bool) (A : List GoString) (hA : cleanNames rooted A) :
    decide ((renderPath rooted A).head? = some 47) = rooted := by
  cases rooted with
  | true => simp [renderPath]
  | false =>
    by_cases hL : A = []
    · subst hL; simp [renderPath]
    · have := stringsJoin_head A hL hA.1
      simp [renderPath, hL, this]

theorem stringsSplit_renderPath (rooted : Bool) (A : List GoString)
    (hA : cleanNames rooted A) :
    (stringsSplit (renderPath rooted A) 47).foldl (cleanStep rooted) [] = A.reverse := by
  have hsep : ∀ a ∈ A, (47 : Byte) ∉ a := fun a ha => (hA.1 a ha).2
  by_cases hL : A = []
  · subst hL; cases rooted <;> simp [renderPath, stringsSplit, stringsJoin, cleanStep, consHead]
  · cases rooted with
    | true =>
      have e : stringsSplit (renderPath true A) 47 = [] :: A := by
        simp [renderPath, stringsSplit, stringsSplit_stringsJoin A 47 hL hsep]
      rw [e, List.foldl_cons]
      simpa [cleanStep] using hA.2
    | false =>
      have e : stringsSplit (renderPath false A) 47 = A := by
        simp [renderPath, hL, stringsSplit_stringsJoin A 47 hL hsep]
      rw [e]; exact hA.2

/-- `filepath.Clean` leaves a cleaned path as it is. -/
theorem filepathClean_renderPath (rooted : Bool) (A : List GoString)
    (hA : cleanNames rooted A) : filepathClean (renderPath rooted A) = renderPath rooted A := by
  rw [filepathClean_eq _ (renderPath_ne_nil rooted A hA), renderPath_rooted rooted A hA,
    stringsSplit_renderPath rooted A hA]
  exact finishClean_reverse rooted A (fun a ha => (hA.1 a ha).1)

theorem mem_insertByName (e x : GoString × Node) (l : List (GoString × Node)) :
    x ∈ insertByName e l ↔ x = e ∨ x ∈ l := by
  induction l with
  | nil => simp [insertByName]
  | cons f rest ih =>
    simp only [insertByName]
    split
    · simp
    · simp only [List.mem_cons, ih]
      constructor
      · rintro (h | h | h)
        · exact Or.inr (Or.inl h)
        · exact Or.inl h
        · exact Or.inr (Or.inr h)
      · rintro (h | h | h)
        · exact Or.inr (Or.inl h)
        · exact Or.inl h
        · exact Or.inr (Or.inr h)

theorem mem_sortByName (x : GoString × Node) (l : List (GoString × Node)) :
    x ∈ sortByName l ↔ x ∈ l := by
  induction l with
  | nil => simp [sortByName]
  | cons e rest ih => simp [sortByName, mem_insertByName, ih]

theorem childName_some (d k name : GoString) (h : childName d k = some name) :
    k = dirPrefix d ++ name ∧ isEntryName name = true := by
  unfold childName at h
  split at h
  · next hc =>
    simp only [Option.some.injEq] at h
    subst h
    obtain ⟨t, ht⟩ := List.isPrefixOf_iff_prefix.mp hc.1
    refine ⟨?_, hc.2⟩
    rw [← ht]; simp
  · cases h

theorem FS.mem_children (fs : FS) (d name : GoString) (node : Node)
    (h : (name, node) ∈ fs.children d) :
    ∃ k, childName d k = some name ∧ fs.lookup k = some node := by
  unfold FS.children at h
  obtain ⟨⟨k, n⟩, _, hf⟩ := List.mem_filterMap.mp h
  simp only at hf
  split at hf
  · next nm hcn =>
    split at hf
    · next hl =>
      simp only [Option.some.injEq, Prod.mk.injEq] at hf
      obtain ⟨h1, h2⟩ := hf
      subst h1 h2
      exact ⟨k, hcn, hl⟩
    · cases hf
  · cases hf

/-- What `os.ReadDir` returns: every entry is a name directly inside the
directory, with the node the table has there. -/
theorem FS.mem_ReadDir (fs : FS) (p name : GoString) (node : Node)
    (files : List (GoString × Node)) (h : fs.ReadDir p = some files)
    (hm : (name, node) ∈ files) :
    isEntryName name = true
      ∧ fs.lookup (dirPrefix (filepathClean p) ++ name) = some node := by
  unfold FS.ReadDir at h
  split at h
  · simp only [Option.some.injEq] at h
    subst h
    obtain ⟨k, hcn, hl⟩ := FS.mem_children fs _ name node ((mem_sortByName _ _).mp hm)
    obtain ⟨hk, hn⟩ := childName_some _ _ _ hcn
    exact ⟨hn, by rw [← hk]; exact hl⟩
  · cases h

theorem stringsJoin_singleton_of_eq (N : List GoString) (x : GoString) (hN : N ≠ [])
    (hel : ∀ a ∈ N, a ≠ [] ∧ 47 ∉ a) (hx : 47 ∉ x) (h : stringsJoin N 47 = x) : N = [x] := by
  have h1 := stringsSplit_stringsJoin N 47 hN (fun a ha => (hel a ha).2)
  rw [h, stringsSplit_no_sep x 47 hx] at h1
  exact h1.symm

/-- The names inside the directory with the cleaned path `N` are the cleaned
paths with one more element. -/
theorem dirPrefix_renderPath (rooted : Bool) (N : List GoString) (name : GoString)
    (hN : cleanNames rooted N) :
    dirPrefix (renderPath rooted N) ++ name = renderPath rooted (N ++ [name]) := by
  by_cases hL : N = []
  · subst hL
    cases rooted <;> simp [renderPath, dirPrefix, stringsJoin]
  · have hj : stringsJoin N 47 ≠ [] :=
      fun e => hL (stringsJoin_eq_nil N 47 (fun a ha => (hN.1 a ha).1) e)
    have e : renderPath rooted (N ++ [name]) = renderPath rooted N ++ 47 :: name := by
      cases rooted <;>
        simp [renderPath, hL, stringsJoin_append N [name] 47 hL (by simp), stringsJoin]
    have h46 : renderPath rooted N ≠ [46] := by
      cases rooted with
      | true => simp [renderPath]
      | false =>
        simp only [renderPath, hL, if_false, Bool.false_eq_true]
        intro h
        have hN1 := stringsJoin_singleton_of_eq N [46] hL hN.1 (by decide) h
        have := hN.2
        rw [hN1] at this
        simp [cleanStep] at this
    have h47 : renderPath rooted N ≠ [47] := by
      cases rooted with
      | true => simpa [renderPath] using hj
      | false =>
        simp only [renderPath, hL, if_false, Bool.false_eq_true]
        intro h
        have := stringsJoin_head N hL hN.1
        rw [h] at this
        simp at this
    simp only [dirPrefix, h46, h47, if_false, e]
    simp

/-! ## `filepath.Join` below an arbitrary root name -/

theorem cleanStep_kept (rooted : Bool) (out : List GoString) (elem : GoString)
    (h : ∀ x ∈ out, x ≠ [] ∧ x ≠ [46]) :
    ∀ x ∈ cleanStep rooted out elem, x ≠ [] ∧ x ≠ [46] := by
  intro x hx
  rcases cleanStep_mem rooted out elem x hx with h1 | h1
  · exact h x h1
  · subst h1
    unfold cleanStep at hx
    by_cases e1 : x = []
    · simp only [e1, if_true] at hx
      exact h _ (by simpa [e1] using hx)
    · by_cases e2 : x = [46]
      · simp only [e1, e2, if_false, if_true] at hx
        have := h _ hx
        exact absurd e2 (by simpa [e2] using this.2)
      · exact ⟨e1, e2⟩

theorem foldl_cleanStep_kept (rooted : Bool) (comps : List GoString) :
    ∀ out : List GoString, (∀ x ∈ out, x ≠ [] ∧ x ≠ [46]) →
      ∀ x ∈ comps.foldl (cleanStep rooted) out, x ≠ [] ∧ x ≠ [46] := by
  induction comps with
  | nil => intro out h; exact h
  | cons e comps ih =>
    intro out h
    exact ih _ (cleanStep_kept rooted out e h)

/-- A cleaned path determines its elements. -/
theorem renderPath_inj (r1 r2 : Bool) (L N : List GoString)
    (hL : ∀ x ∈ L, x ≠ [] ∧ 47 ∉ x ∧ x ≠ [46]) (hN : cleanNames r2 N)
    (h : renderPath r1 L = renderPath r2 N) : r1 = r2 ∧ L = N := by
  have hL2 : ∀ x ∈ L, x ≠ [] ∧ 47 ∉ x := fun x hx => ⟨(hL x hx).1, (hL x hx).2.1⟩
  have hjoin : ∀ M : List GoString, (∀ x ∈ M, x ≠ [] ∧ 47 ∉ x) →
      stringsJoin L 47 = stringsJoin M 47 → L = M := by
    intro M hM hj
    by_cases h1 : L = []
    · subst h1
      exact (stringsJoin_eq_nil M 47 (fun a ha => (hM a ha).1) hj.symm).symm
    · by_cases h2 : M = []
      · subst h2
        exact stringsJoin_eq_nil L 47 (fun a ha => (hL2 a ha).1) hj
      · have e1 := stringsSplit_stringsJoin L 47 h1 (fun a ha => (hL2 a ha).2)
        have e2 := stringsSplit_stringsJoin M 47 h2 (fun a ha => (hM a ha).2)
        rw [hj, e2] at e1
        exact e1.symm
  have hr1 : decide ((renderPath r1 L).head? = some 47) = r1 := by
    cases r1 with
    | true => simp [renderPath]
    | false =>
      by_cases h1 : L = []
      · subst h1; simp [renderPath]
      · have := stringsJoin_head L h1 hL2
        simp [renderPath, h1, this]
  have hr : r1 = r2 := by
    rw [← hr1, h, renderPath_rooted r2 N hN]
  subst hr
  refine ⟨rfl, ?_⟩
  cases r1 with
  | true =>
    simp only [renderPath, if_true, List.cons.injEq, true_and] at h
    exact hjoin N hN.1 h
  | false =>
    by_cases h1 : L = []
    · subst h1
      by_cases h2 : N = []
      · exact h2.symm
      · simp only [renderPath, h2, if_false, if_true, Bool.false_eq_true] at h
        have hN1 := stringsJoin_singleton_of_eq N [46] h2 hN.1 (by decide) h.symm
        have := hN.2
        rw [hN1] at this
        simp [cleanStep] at this
    · by_cases h2 : N = []
      · subst h2
        simp only [renderPath, h1, if_false, if_true, Bool.false_eq_true] at h
        have hL1 := stringsJoin_singleton_of_eq L [46] h1 hL2 (by decide) h
        have := (hL [46] (by rw [hL1]; simp)).2.2
        exact absurd rfl this
      · simp only [renderPath, h1, h2, if_false, Bool.false_eq_true] at h
        exact hjoin N hN.1 h

/-- `filepath.Join(cur, rel)` for a name `cur` that cleans to the path `N` and
a relative path `rel` of entry names is the cleaned path `N/rel`. -/
theorem filepathJoin_of_clean (cur : GoString) (rooted : Bool) (N B : List GoString)
    (hne : cur ≠ []) (hN : cleanNames rooted N)
    (hclean : filepathClean cur = renderPath rooted N)
    (hB : allEntryNames B) (hBne : B ≠ []) :
    filepathJoin cur (stringsJoin B 47) = renderPath rooted (N ++ B) := by
  have hsep : ∀ a ∈ B, (47 : Byte) ∉ a := fun a ha => (allEntryNames_slashFree B hB a ha).2
  have hS : ∀ x ∈ (stringsSplit cur 47).foldl
      (cleanStep (decide (cur.head? = some 47))) [],
      x ≠ [] ∧ 47 ∉ x ∧ x ≠ [46] := by
    intro x hx
    have h1 := foldl_cleanStep_kept _ (stringsSplit cur 47) [] (by simp) x hx
    rcases foldl_cleanStep_mem _ (stringsSplit cur 47) [] x hx with h2 | h2
    · simp at h2
    · exact ⟨h1.1, stringsSplit_no_sep_mem cur 47 x h2, h1.2⟩
  have hfin := filepathClean_eq cur hne
  rw [hclean] at hfin
  have hrev := finishClean_reverse (decide (cur.head? = some 47))
    ((stringsSplit cur 47).foldl (cleanStep (decide (cur.head? = some 47))) []).reverse
    (fun a ha => (hS a (List.mem_reverse.mp ha)).1)
  rw [List.reverse_reverse] at hrev
  rw [hrev] at hfin
  obtain ⟨hr, hl⟩ := renderPath_inj _ _ _ _
    (fun x hx => hS x (List.mem_reverse.mp hx)) hN hfin.symm
  have hstack : (stringsSplit cur 47).foldl (cleanStep rooted) [] = N.reverse := by
    rw [← hl, List.reverse_reverse, ← hr]
  have hne2 : cur ++ 47 :: stringsJoin B 47 ≠ [] := by simp [hne]
  have hhead : (cur ++ 47 :: stringsJoin B 47).head? = cur.head? := by
    cases cur with
    | nil => exact absurd rfl hne
    | cons b x => rfl
  simp only [filepathJoin, hne, ne_eq, not_false_eq_true, if_true]
  rw [filepathClean_eq _ hne2, hhead, hr, stringsSplit_append, List.foldl_append, hstack,
    stringsSplit_stringsJoin B 47 hBne hsep, foldl_cleanStep_entryNames rooted B hB,
    ← List.reverse_append]
  exact finishClean_reverse rooted (N ++ B)
    (fun a ha => ((cleanNames_append rooted N B hN hB).1 a ha).1)

/-! ## The enumeration -/

theorem FS.lookup_mem (fs : FS) (k : GoString) (n : Node) (h : fs.lookup k = some n) :
    (k, n) ∈ fs := by
  induction fs with
  | nil => simp [FS.lookup] at h
  | cons e fs ih =>
    obtain ⟨q, m⟩ := e
    by_cases hq : q = k
    · simp only [FS.lookup, hq, if_true, Option.some.injEq] at h
      simp [hq, h]
    · simp only [FS.lookup, hq, if_false] at h
      exact List.mem_cons_of_mem _ (ih h)

theorem maxDepth_mem (fs : FS) (k : GoString) (n : Node) (h : (k, n) ∈ fs) :
    k.count 47 ≤ maxDepth fs := by
  induction fs with
  | nil => simp at h
  | cons e fs ih =>
    simp only [maxDepth]
    rcases List.mem_cons.mp h with h1 | h1
    · rw [← h1]; exact Nat.le_max_left _ _
    · exact (ih h1).trans (Nat.le_max_right _ _)

theorem length_le_count_renderPath (rooted : Bool) (L : List GoString)
    (hL : cleanNames rooted L) : L.length ≤ (renderPath rooted L).count 47 + 1 := by
  have hc := count_stringsJoin L 47 (fun x hx => (hL.1 x hx).2)
  by_cases hnil : L = []
  · subst hnil; simp
  · cases rooted with
    | true =>
      simp only [renderPath, if_true, List.count_cons_self, hc]
      omega
    | false =>
      simp only [renderPath, hnil, if_false, Bool.false_eq_true, hc]
      omega

/-- The loop over the entries of a directory with the cleaned path `A/M`:
every path it adds comes from a regular file below the root `A`. -/
theorem traverseEntries_spec (fs : FS) (rooted : Bool) (A : List GoString)
    (hA : cleanNames rooted A)
    (recurse : GoString → List GoString → Outcome (List GoString) Unit)
    (cur : GoString) (M : List GoString) (hcur : cur ≠ []) (hM : allEntryNames M)
    (hclean : filepathClean cur = renderPath rooted (A ++ M))
    (hrec : ∀ name acc, isEntryName name = true →
      fs.lookup (renderPath rooted (A ++ (M ++ [name]))) = some Node.dir →
      recurse (renderPath rooted (A ++ (M ++ [name]))) acc = .exit ()
        ∨ ∃ new, recurse (renderPath rooted (A ++ (M ++ [name]))) acc = .ok (acc ++ new)
            ∧ ∀ e ∈ new, emittedFrom fs rooted A e) :
    ∀ (files : List (GoString × Node)) (acc : List GoString),
      (∀ name node, (name, node) ∈ files → isEntryName name = true
        ∧ fs.lookup (renderPath rooted (A ++ (M ++ [name]))) = some node) →
      traverseEntries recurse cur files acc = .exit ()
        ∨ ∃ new, traverseEntries recurse cur files acc = .ok (acc ++ new)
            ∧ ∀ e ∈ new, emittedFrom fs rooted A e := by
  intro files
  induction files with
  | nil =>
    intro acc _
    exact Or.inr ⟨[], by simp [traverseEntries], by simp⟩
  | cons f files ih =>
    intro acc hfiles
    obtain ⟨name, node⟩ := f
    obtain ⟨hname, hlook⟩ := hfiles name node (by simp)
    have hrest : ∀ nm nd, (nm, nd) ∈ files → isEntryName nm = true
        ∧ fs.lookup (renderPath rooted (A ++ (M ++ [nm]))) = some nd :=
      fun nm nd h => hfiles nm nd (List.mem_cons_of_mem _ h)
    have hjoin : filepathJoin cur name = renderPath rooted (A ++ (M ++ [name])) := by
      have := filepathJoin_of_clean cur rooted (A ++ M) [name] hcur
        (cleanNames_append rooted A M hA hM) hclean
        (by intro x hx; rw [List.mem_singleton.mp hx]; exact hname) (by simp)
      simpa [stringsJoin, List.append_assoc] using this
    cases node with
    | dir =>
      simp only [traverseEntries, hjoin]
      rcases hrec name acc hname hlook with h1 | ⟨new1, h1, hnew1⟩
      · left; simp only [h1]
      · simp only [h1]
        rcases ih (acc ++ new1) hrest with h2 | ⟨new2, h2, hnew2⟩
        · left; exact h2
        · right
          refine ⟨new1 ++ new2, by rw [h2, List.append_assoc], ?_⟩
          intro e he
          rcases List.mem_append.mp he with h | h
          · exact hnew1 e h
          · exact hnew2 e h
    | file content fault =>
      simp only [traverseEntries, hjoin]
      rcases ih (acc ++ [stringsJoin
          ((stringsSplit (renderPath rooted (A ++ (M ++ [name]))) 47).drop 1) 47]) hrest
        with h2 | ⟨new2, h2, hnew2⟩
      · left; exact h2
      · right
        refine ⟨stringsJoin
          ((stringsSplit (renderPath rooted (A ++ (M ++ [name]))) 47).drop 1) 47 :: new2,
          by rw [h2, List.append_assoc, List.singleton_append], ?_⟩
        intro e he
        rcases List.mem_cons.mp he with h | h
        · refine ⟨M ++ [name], content, fault, by simp, ?_, hlook, h⟩
          intro x hx
          rcases List.mem_append.mp hx with h3 | h3
          · exact hM x h3
          · rw [List.mem_singleton.mp h3]; exact hname
        · exact hnew2 e h

/-- The closure `traverseDirectory` on a name that cleans to `A/M`: it ends,
with `os.Exit(1)` or with more paths, each from a regular file below `A`. -/
theorem traverseDirectory_spec (fs : FS) (rooted : Bool) (A : List GoString)
    (hA : cleanNames rooted A) (fuel : Nat) :
    ∀ (cur : GoString) (M : List GoString) (acc : List GoString), cur ≠ [] →
      allEntryNames M → filepathClean cur = renderPath rooted (A ++ M) → 1 ≤ fuel →
      maxDepth fs + 2 ≤ fuel + (A ++ M).length →
      traverseDirectory fuel fs cur acc = .exit ()
        ∨ ∃ new, traverseDirectory fuel fs cur acc = .ok (acc ++ new)
            ∧ ∀ e ∈ new, emittedFrom fs rooted A e := by
  induction fuel with
  | zero => intro cur M acc _ _ _ h; omega
  | succ fuel ih =>
    intro cur M acc hcur hM hclean _ hdepth
    simp only [traverseDirectory]
    cases hrd : fs.ReadDir cur with
    | none => left; rfl
    | some files =>
      simp only
      have hAM := cleanNames_append rooted A M hA hM
      refine traverseEntries_spec fs rooted A hA (traverseDirectory fuel fs) cur M hcur hM
        hclean ?_ files acc ?_
      · intro name acc2 hname hlook
        have hM2 : allEntryNames (M ++ [name]) := by
          intro x hx
          rcases List.mem_append.mp hx with h3 | h3
          · exact hM x h3
          · rw [List.mem_singleton.mp h3]; exact hname
        have hAM2 := cleanNames_append rooted A (M ++ [name]) hA hM2
        have hlen := length_le_count_renderPath rooted (A ++ (M ++ [name])) hAM2
        have hmax := maxDepth_mem fs _ _ (FS.lookup_mem fs _ _ hlook)
        simp only [List.length_append, List.length_singleton] at hlen hdepth
        exact ih _ (M ++ [name]) acc2 (renderPath_ne_nil rooted _ hAM2) hM2
          (filepathClean_renderPath rooted _ hAM2) (by omega)
          (by simp only [List.length_append, List.length_singleton]; omega)
      · intro name node hmem
        obtain ⟨hname, hlook⟩ := FS.mem_ReadDir fs cur name node files hrd hmem
        refine ⟨hname, ?_⟩
        rw [hclean, dirPrefix_renderPath rooted (A ++ M) name hAM, List.append_assoc] at hlook
        exact hlook

theorem stringsSplit_renderPath_eq (rooted : Bool) (L : List GoString) (hL : L ≠ [])
    (hsep : ∀ a ∈ L, (47 : Byte) ∉ a) :
    stringsSplit (renderPath rooted L) 47 = if rooted then [] :: L else L := by
  cases rooted with
  | true => simp [renderPath, stringsSplit, stringsSplit_stringsJoin L 47 hL hsep]
  | false => simp [renderPath, hL, stringsSplit_stringsJoin L 47 hL hsep]

/-- The closure of `InitFilePaths` started on the root folder itself. -/
theorem traverseDirectory_root (fs : FS) (root : GoString) (rooted : Bool)
    (A : List GoString) (hA : cleanNames rooted A) (hne : root ≠ [])
    (hroot : filepathClean root = renderPath rooted A) :
    traverseDirectory (maxDepth fs + 3) fs root [] = .exit ()
      ∨ ∃ new, traverseDirectory (maxDepth fs + 3) fs root [] = .ok new
          ∧ ∀ e ∈ new, emittedFrom fs rooted A e := by
  have h := traverseDirectory_spec fs rooted A hA (maxDepth fs + 3) root [] [] hne
    (by intro x hx; simp at hx) (by simpa using hroot) (by omega) (by omega)
  simpa using h

/-- The form of every path that `InitFilePaths` emits. `InitFilePaths` returns
or exits, and when it returns every path it emitted is `Join(rootPath, rel)`
without its first `/`-separated element, for the relative path `rel` of a
regular file below the root. So, with the root cleaned: below a single
relative component (`A = [a]`) and below `/` the emitted path is `rel` itself;
below a relative root of more components it is the remaining root components,
`/`, `rel`; below an absolute root it is all root components, `/`, `rel`; and
below the root `.` it is `rel` without its own first component. -/
theorem InitFilePaths_emitted_paths (w : World) (rooted : Bool) (A : List GoString)
    (hA : cleanNames rooted A) (hne : w.fh.pathToFolder ≠ [])
    (hroot : filepathClean w.fh.pathToFolder = renderPath rooted A) :
    InitFilePaths w ≠ .hang ∧
    ∀ w1, InitFilePaths w = .ok w1 → ∀ e ∈ w1.fh.filePaths,
      ∃ (names : List GoString) (content : List Byte) (fault : Option Nat),
        names ≠ [] ∧ allEntryNames names
        ∧ w.fs.lookup (filepathJoin w.fh.pathToFolder (stringsJoin names 47))
            = some (Node.file content fault)
        ∧ e = stringsJoin ((stringsSplit
            (filepathJoin w.fh.pathToFolder (stringsJoin names 47)) 47).drop 1) 47
        ∧ (rooted = false → ∀ a, A = [a] → e = stringsJoin names 47)
        ∧ (rooted = true → A = [] → e = stringsJoin names 47)
        ∧ (rooted = false → ∀ a A1, A = a :: A1 → A1 ≠ [] →
            e = stringsJoin A1 47 ++ 47 :: stringsJoin names 47)
        ∧ (rooted = true → A ≠ [] → e = stringsJoin A 47 ++ 47 :: stringsJoin names 47)
        ∧ (rooted = false → A = [] → e = stringsJoin (names.drop 1) 47) := by
  have h := traverseDirectory_root w.fs w.fh.pathToFolder rooted A hA hne hroot
  refine ⟨?_, ?_⟩
  · rcases h with h | ⟨new, h, _⟩ <;> simp [InitFilePaths, h]
  · intro w1 hw1 e he
    rcases h with h | ⟨new, h, hnew⟩
    · simp [InitFilePaths, h] at hw1
    · simp only [InitFilePaths, h, Outcome.ok.injEq] at hw1
      subst hw1
      obtain ⟨names, content, fault, hn, hent, hlook, hstrip⟩ := hnew e he
      have hjoin := filepathJoin_of_clean w.fh.pathToFolder rooted A names hne hA hroot hent hn
      have hAn := cleanNames_append rooted A names hA hent
      have hsplit := stringsSplit_renderPath_eq rooted (A ++ names) (by simp [hn])
        (fun a ha => (hAn.1 a ha).2)
      refine ⟨names, content, fault, hn, hent, by rw [hjoin]; exact hlook,
        by rw [hjoin]; exact hstrip, ?_, ?_, ?_, ?_, ?_⟩
      · intro hr a ha
        subst hr; subst ha
        rw [hstrip, hsplit]; simp
      · intro hr ha
        subst hr; subst ha
        rw [hstrip, hsplit]; simp
      · intro hr a A1 ha hA1
        subst hr; subst ha
        rw [hstrip, hsplit]
        simp only [Bool.false_eq_true, if_false, List.cons_append, List.drop_succ_cons,
          List.drop_zero]
        exact stringsJoin_append A1 names 47 hA1 hn
      · intro hr ha
        subst hr
        rw [hstrip, hsplit]
        simp only [if_true, List.drop_succ_cons, List.drop_zero]
        exact stringsJoin_append A names 47 ha hn
      · intro hr ha
        subst hr; subst ha
        rw [hstrip, hsplit]; simp

theorem InitFilePaths_emitted_paths_witness :
    cleanNames false [ascii "root"]
    ∧ InitFilePaths (scenarioWorld []) = .ok (scenarioWorld [])
    ∧ ∃ (names : List GoString) (content : List Byte) (fault : Option Nat),
        allEntryNames names
        ∧ (scenarioWorld []).fs.lookup (filepathJoin (ascii "root") (stringsJoin names 47))
            = some (Node.file content fault)
        ∧ ascii "sub/b.txt" = stringsJoin names 47 := by
  have hA : cleanNames false [ascii "root"] := ⟨by decide, by decide⟩
  have hrun : InitFilePaths (scenarioWorld []) = .ok (scenarioWorld []) := by decide
  obtain ⟨names, content, fault, _, hent, hlook, _, h1, _⟩ :=
    (InitFilePaths_emitted_paths (scenarioWorld []) false [ascii "root"] hA
      (by decide) (by decide)).2 _ hrun (ascii "sub/b.txt") (by decide)
  exact ⟨hA, hrun, names, content, fault, hent, hlook, h1 rfl _ rfl⟩

/-- C19. The root `.` is a single relative component, and the working
directory holds the regular files `f.txt` and `s/g`, yet `InitFilePaths` sets
`fh.filePaths` to the empty path and `g`, not to the root-relative paths:
`Join(".", "f.txt")` is `f.txt`, and the element that line 143 removes is the
file's own first component. The listed empty path is the root folder itself
for `sendFile`, which opens `Join(".", "")`, a directory. -/
theorem InitFilePaths_dot_root_emits_empty_path :
    dotRootWorld.fh.pathToFolder = ascii "."
    ∧ filepathJoin (ascii ".") (ascii "f.txt") = ascii "f.txt"
    ∧ dotRootWorld.fs.lookup (filepathJoin (ascii ".") (ascii "f.txt"))
        = some (Node.file [1] none)
    ∧ dotRootWorld.fs.lookup (filepathJoin (ascii ".") (ascii "s/g"))
        = some (Node.file [] none)
    ∧ InitFilePaths dotRootWorld
        = .ok { dotRootWorld with
                fh := { dotRootWorld.fh with filePaths := [ascii "", ascii "g"] } }
    ∧ ascii "f.txt" ∉ [ascii "", ascii "g"]
    ∧ ascii "s/g" ∉ [ascii "", ascii "g"]
    ∧ filepathJoin (ascii ".") (ascii "") = ascii "."
    ∧ dotRootWorld.fs.stat (filepathJoin (ascii ".") (ascii "")) = some Node.dir
    ∧ dotRootWorld.fs.stat (filepathJoin (ascii ".") (ascii "g")) = none := by
  decide

/-- C11. Below the root folder `a/b`, which holds the regular files `f.txt` and
`s/g`, `InitFilePaths` sets `fh.filePaths` to `b/f.txt` and `b/s/g`: the paths
relative to the root, `f.txt` and `s/g`, are not in the list, and the listed
`b/f.txt` is no file below the root, so that `sendFile` cannot open it. -/
theorem InitFilePaths_nested_root_keeps_prefix :
    nestedRootWorld.fh.pathToFolder = ascii "a/b"
    ∧ nestedRootWorld.fs.lookup (filepathJoin (ascii "a/b") (ascii "f.txt"))
        = some (Node.file [1] none)
    ∧ nestedRootWorld.fs.lookup (filepathJoin (ascii "a/b") (ascii "s/g"))
        = some (Node.file [] none)
    ∧ InitFilePaths nestedRootWorld
        = .ok { nestedRootWorld with
                fh := { nestedRootWorld.fh with
                        filePaths := [ascii "b/f.txt", ascii "b/s/g"] } }
    ∧ ascii "f.txt" ∉ [ascii "b/f.txt", ascii "b/s/g"]
    ∧ ascii "s/g" ∉ [ascii "b/f.txt", ascii "b/s/g"]
    ∧ nestedRootWorld.fs.Open (filepathJoin (ascii "a/b") (ascii "b/f.txt")) = none := by
  decide

end FileSync
